import Mathlib

/-!
Verification of the getml-community relational propositionalization engine
("FastProp" core, preprocessors and dependency-cache layer) against its
natural-language specification.  The definitions below are shallow embeddings
of the C++ sources under `src/src/engine/`; each definition's doc comment
names the source function it embeds.  Machine floats are modelled exactly
(as `ℚ`, or as the tagged type `FVal` when NaN/±Inf behaviour matters).
-/

namespace GetML

/-! ## Feature selection (`FastProp::select_features`, `FastProp::calc_threshold`)

`src/src/engine/src/fastprop/FastProp.cpp` lines 1479-1509 and 315-320.
R² scores are the input vector `_r_squared`; how they were computed does not
matter for the selection logic.
-/

/-- Descending sort used by `FastProp::calc_threshold`
(`std::ranges::sort(r_squared, std::ranges::greater())`). -/
def sortDesc (r : List ℚ) : List ℚ :=
  r.insertionSort (fun a b => b ≤ a)

/-- `FastProp::calc_threshold`: sort the R² values in descending order and
return the entry at index `num_features` (the `(num_features+1)`-th highest
value).  The source asserts `r_squared.size() > num_features`, so the
`getD` default is never taken at call sites. -/
def calc_threshold (num_features : ℕ) (r_squared : List ℚ) : ℚ :=
  (sortDesc r_squared).getD num_features 0

/-- `FastProp::select_features`: if there are at most `num_features`
candidates, keep all of them; otherwise keep exactly the candidates whose
R² is strictly greater than the threshold.  The source iterates
`iota(0, r_squared.size())`, filters by `r_squared.at(ix) > threshold` and
maps `ix` to `abstract_features().at(ix)`; with the source's assertion
`r_squared.size() == abstract_features().size()` this is the zip below. -/
def select_features {α : Type} (num_features : ℕ) (cands : List α)
    (r_squared : List ℚ) : List α :=
  if cands.length ≤ num_features then cands
  else
    ((cands.zip r_squared).filter
      (fun p => calc_threshold num_features r_squared < p.2)).map Prod.fst

instance descTotal : IsTotal ℚ (fun a b => b ≤ a) :=
  ⟨fun a b => le_total b a⟩

instance descTrans : IsTrans ℚ (fun a b => b ≤ a) :=
  ⟨fun _ _ _ h1 h2 => le_trans h2 h1⟩

instance descRefl : IsRefl ℚ (fun a b => b ≤ a) :=
  ⟨fun a => le_refl a⟩

theorem sortDesc_sorted (r : List ℚ) :
    (sortDesc r).Sorted (fun a b => b ≤ a) :=
  List.sorted_insertionSort _ r

theorem sortDesc_perm (r : List ℚ) : List.Perm (sortDesc r) r :=
  List.perm_insertionSort _ r

theorem sortDesc_length (r : List ℚ) : (sortDesc r).length = r.length :=
  (sortDesc_perm r).length_eq

/-- The descending-sorted list is antitone in its index. -/
theorem sortDesc_anti (r : List ℚ) {i j : ℕ} (hij : i ≤ j)
    (hj : j < (sortDesc r).length) :
    (sortDesc r).getD j 0 ≤ (sortDesc r).getD i 0 := by
  have hi : i < (sortDesc r).length := Nat.lt_of_le_of_lt hij hj
  rw [List.getD_eq_getElem _ _ hj, List.getD_eq_getElem _ _ hi]
  have h := (sortDesc_sorted r).rel_get_of_le
    (a := ⟨i, hi⟩) (b := ⟨j, hj⟩) hij
  simpa using h

/-- In the descending-sorted list, every element at or beyond index `k`
is at most the element at index `k`. -/
theorem sortDesc_drop_le (r : List ℚ) (k : ℕ) (hk : k < (sortDesc r).length)
    (x : ℚ) (hx : x ∈ (sortDesc r).drop k) :
    x ≤ (sortDesc r).getD k 0 := by
  obtain ⟨j, hj, rfl⟩ := List.getElem_of_mem hx
  rw [List.getElem_drop]
  have hkj : k + j < (sortDesc r).length := by
    rw [List.length_drop] at hj
    omega
  have h2 := sortDesc_anti r (Nat.le_add_right k j) hkj
  rw [List.getD_eq_getElem _ _ hkj] at h2
  exact h2

/-- In the descending-sorted list, every element strictly before index `k`
is at least the element at index `k`. -/
theorem sortDesc_take_ge (r : List ℚ) (k : ℕ) (hk : k < (sortDesc r).length)
    (x : ℚ) (hx : x ∈ (sortDesc r).take k) :
    (sortDesc r).getD k 0 ≤ x := by
  obtain ⟨j, hj, rfl⟩ := List.getElem_of_mem hx
  rw [List.getElem_take]
  rw [List.length_take, Nat.lt_min] at hj
  have h2 := sortDesc_anti r (le_of_lt hj.1) hk
  rw [List.getD_eq_getElem _ _ hj.2] at h2
  exact h2

/-- Filtering the zipped list by a predicate on the score component has the
same length as filtering the score list, provided the lists have equal
length (the source's assertion). -/
theorem zip_filter_snd_length {α : Type} (cands : List α) (rsq : List ℚ)
    (t : ℚ) (hlen : rsq.length = cands.length) :
    ((cands.zip rsq).filter (fun p => decide (t < p.2))).length
      = (rsq.filter (fun x => decide (t < x))).length := by
  induction cands generalizing rsq with
  | nil =>
    cases rsq with
    | nil => rfl
    | cons a tl => simp at hlen
  | cons c ct ih =>
    cases rsq with
    | nil => simp at hlen
    | cons a tl =>
      simp only [List.zip_cons_cons, List.filter_cons]
      by_cases hp : t < a
      · simp only [hp, decide_eq_true_eq, if_pos]
        simp only [List.length_cons]
        have := ih tl (by simpa using hlen)
        omega
      · simp only [hp, decide_eq_true_eq, if_neg, if_false]
        exact ih tl (by simpa using hlen)

/-- Counting bound: at most `k` entries of `r` strictly exceed the
`(k+1)`-th largest entry of `r`. -/
theorem filter_gt_threshold_le (r : List ℚ) (k : ℕ) (hk : k < r.length) :
    (r.filter (fun x => decide (calc_threshold k r < x))).length ≤ k := by
  have hks : k < (sortDesc r).length := by rw [sortDesc_length]; exact hk
  have hperm : (r.filter (fun x => decide (calc_threshold k r < x))).length
      = ((sortDesc r).filter
          (fun x => decide (calc_threshold k r < x))).length :=
    (((sortDesc_perm r).filter _).length_eq).symm
  rw [hperm]
  have hsplit : sortDesc r = (sortDesc r).take k ++ (sortDesc r).drop k :=
    (List.take_append_drop k (sortDesc r)).symm
  conv_lhs => rw [hsplit]
  rw [List.filter_append, List.length_append]
  have hdrop : ((sortDesc r).drop k).filter
      (fun x => decide (calc_threshold k r < x)) = [] := by
    rw [List.filter_eq_nil_iff]
    intro x hx
    have := sortDesc_drop_le r k hks x hx
    simp only [decide_eq_true_eq, not_lt]
    exact this
  rw [hdrop]
  simp only [List.length_nil, Nat.add_zero]
  refine le_trans (List.length_filter_le _ _) ?_
  rw [List.length_take]
  exact Nat.min_le_left _ _

/-- C2.  **Feature-bound** of `FastProp::select_features`: the number of
selected abstract features never exceeds `num_features` when selection
kicks in, never exceeds the candidate count overall, and whenever the
candidate count is at most `num_features` every candidate is selected.
The hypothesis mirrors the source assertion
`r_squared.size() == abstract_features().size()`. -/
theorem select_features_bound {α : Type} (num_features : ℕ) (cands : List α)
    (rsq : List ℚ) (hlen : rsq.length = cands.length) :
    (select_features num_features cands rsq).length ≤ num_features ∧
      (cands.length ≤ num_features →
        select_features num_features cands rsq = cands) := by
  constructor
  · by_cases h : cands.length ≤ num_features
    · rw [select_features, if_pos h]
      exact h
    · rw [select_features, if_neg h]
      push_neg at h
      rw [List.length_map]
      rw [zip_filter_snd_length cands rsq _ hlen]
      exact filter_gt_threshold_le rsq num_features (by omega)
  · intro h
    rw [select_features, if_pos h]

/-- Witness for `select_features_bound` at a concrete input. -/
theorem select_features_bound_witness :
    ([(3:ℚ), 1, 2].length = [10, 20, 30].length) ∧
      (select_features 1 [10, 20, 30] [(3:ℚ), 1, 2]).length ≤ 1 :=
  ⟨by decide,
   (select_features_bound 1 [10, 20, 30] [(3:ℚ), 1, 2] (by decide)).1⟩

/-- C1, counterexample.  With three candidates, `num_features = 2` and all
R² values tied at 1, the source keeps no candidate at all (the filter is
strict at the threshold, which equals the tied value), whereas the claim
demands that exactly the 2 earliest-enumerated candidates be kept. -/
theorem select_features_tie_counterexample :
    select_features 2 [(0:ℕ), 1, 2] [(1:ℚ), 1, 1] = [] ∧
      ¬(select_features 2 [(0:ℕ), 1, 2] [(1:ℚ), 1, 1]).length = 2 := by
  constructor
  · decide
  · decide

/-- C1, amended.  When the candidate count exceeds `num_features` and the
threshold value (the `(num_features+1)`-th highest R²) does not tie with
any of the `num_features` values above it, `select_features` keeps exactly
`num_features` candidates, and they form a sublist of the candidate list
(enumeration order is preserved).  When there is a tie at the boundary all
tied candidates are dropped, as the counterexample shows. -/
theorem select_features_no_boundary_tie {α : Type} (num_features : ℕ)
    (cands : List α) (rsq : List ℚ) (hlen : rsq.length = cands.length)
    (hlt : num_features < cands.length)
    (hnotie : calc_threshold num_features rsq ∉
      (sortDesc rsq).take num_features) :
    (select_features num_features cands rsq).length = num_features ∧
      (select_features num_features cands rsq).Sublist cands := by
  have hlr : num_features < rsq.length := by omega
  have hks : num_features < (sortDesc rsq).length := by
    rw [sortDesc_length]; exact hlr
  constructor
  · rw [select_features, if_neg (by omega), List.length_map]
    rw [zip_filter_snd_length cands rsq _ hlen]
    have hperm : (rsq.filter
        (fun x => decide (calc_threshold num_features rsq < x))).length
        = ((sortDesc rsq).filter
            (fun x => decide (calc_threshold num_features rsq < x))).length :=
      (((sortDesc_perm rsq).filter _).length_eq).symm
    rw [hperm]
    have hsplit : sortDesc rsq
        = (sortDesc rsq).take num_features
          ++ (sortDesc rsq).drop num_features :=
      (List.take_append_drop num_features (sortDesc rsq)).symm
    conv_lhs => rw [hsplit]
    rw [List.filter_append, List.length_append]
    have hdrop : ((sortDesc rsq).drop num_features).filter
        (fun x => decide (calc_threshold num_features rsq < x)) = [] := by
      rw [List.filter_eq_nil_iff]
      intro x hx
      have := sortDesc_drop_le rsq num_features hks x hx
      simp only [decide_eq_true_eq, not_lt]
      exact this
    have htake : ((sortDesc rsq).take num_features).filter
        (fun x => decide (calc_threshold num_features rsq < x))
        = (sortDesc rsq).take num_features := by
      rw [List.filter_eq_self]
      intro x hx
      have hge := sortDesc_take_ge rsq num_features hks x hx
      have hne : calc_threshold num_features rsq ≠ x := by
        intro hcontra
        exact hnotie (hcontra ▸ hx)
      simp only [decide_eq_true_eq]
      exact lt_of_le_of_ne hge hne
    rw [hdrop, htake]
    simp only [List.length_nil, Nat.add_zero, List.length_take]
    omega
  · rw [select_features, if_neg (by omega)]
    have h1 : ((cands.zip rsq).filter
        (fun p => calc_threshold num_features rsq < p.2)).Sublist
        (cands.zip rsq) := List.filter_sublist _
    have h2 := h1.map Prod.fst
    rw [List.map_fst_zip cands rsq (by omega)] at h2
    exact h2

/-- Witness for `select_features_no_boundary_tie` at a concrete input. -/
theorem select_features_no_boundary_tie_witness :
    (([(3:ℚ), 1, 2].length = [(7:ℕ), 8, 9].length) ∧
        1 < [(7:ℕ), 8, 9].length ∧
        calc_threshold 1 [(3:ℚ), 1, 2] ∉ (sortDesc [(3:ℚ), 1, 2]).take 1) ∧
      (select_features 1 [(7:ℕ), 8, 9] [(3:ℚ), 1, 2]).length = 1 :=
  ⟨⟨by decide, by decide, by decide⟩,
   (select_features_no_boundary_tie 1 [(7:ℕ), 8, 9] [(3:ℚ), 1, 2]
     (by decide) (by decide) (by decide)).1⟩

/-! ## Row sampling and row partitioning
(`FastProp::sample_from_population`, `FastProp::make_rownums`,
`FastProp::build_rows`/`cache_to_features`/`spawn_threads`)

`src/src/engine/src/fastprop/FastProp.cpp` lines 1463-1475, 1400-1443,
106-186, 245-266 and 1526-1569.
-/

/-- `FastProp::sample_from_population`: the source draws one uniform
variate per candidate row from a freshly default-constructed `std::mt19937`
(hence a fixed, seed-independent stream) and keeps row `i` iff
`dist(rng) < sampling_factor`.  The variate stream is the external PRNG
output, passed here as `stream`; it is a constant of the program, identical
on every run. -/
def sample_from_population (stream : ℕ → ℚ) (sampling_factor : ℚ)
    (nrows : ℕ) : List ℕ :=
  (List.range nrows).filter (fun i => stream i < sampling_factor)

/-- The loop body of `calc_rows_per_thread` inside `FastProp::make_rownums`.
`fuel` bounds the iteration count; the source loop terminates after at most
two iterations (see `calc_rows_per_thread_eq`). -/
def calcRowsPerThreadAux : ℕ → ℕ → ℕ → ℕ → ℕ
  | 0, _, _, rpt => rpt
  | fuel + 1, nrows, t, rpt =>
    let remaining := nrows - rpt * t
    let rpt2 := rpt + remaining / t
    if remaining < t then rpt2 else calcRowsPerThreadAux fuel nrows t rpt2

/-- `calc_rows_per_thread` of `FastProp::make_rownums`. -/
def calc_rows_per_thread (nrows numThreads : ℕ) : ℕ :=
  calcRowsPerThreadAux (nrows + 1) nrows numThreads 0

/-- The source loop computes exactly `nrows / num_threads`. -/
theorem calc_rows_per_thread_eq (nrows numThreads : ℕ)
    (h : 1 ≤ numThreads) :
    calc_rows_per_thread nrows numThreads = nrows / numThreads := by
  have hmod : nrows - nrows / numThreads * numThreads
      = nrows % numThreads := by
    have h2 := Nat.div_add_mod nrows numThreads
    have h3 : nrows / numThreads * numThreads
        = numThreads * (nrows / numThreads) := Nat.mul_comm _ _
    omega
  rw [calc_rows_per_thread, calcRowsPerThreadAux]
  simp only [Nat.zero_mul, Nat.sub_zero, Nat.zero_add]
  by_cases hlt : nrows < numThreads
  · rw [if_pos hlt]
  · rw [if_neg hlt]
    push_neg at hlt
    have hn1 : 1 ≤ nrows := le_trans h hlt
    have hsplit : calcRowsPerThreadAux nrows nrows numThreads
        (nrows / numThreads)
        = calcRowsPerThreadAux (nrows - 1 + 1) nrows numThreads
          (nrows / numThreads) := by
      congr 1
      omega
    rw [hsplit, calcRowsPerThreadAux]
    simp only [hmod]
    rw [if_pos (Nat.mod_lt _ (by omega))]
    rw [Nat.div_eq_of_lt (Nat.mod_lt _ (by omega)), Nat.add_zero]

/-- `FastProp::make_rownums`: the contiguous slice of the row-number list
`rs` assigned to thread `t` out of `numThreads`.  When the source is handed
a null `_rownums` it slices `iota(0, nrows)`, i.e. `rs = List.range nrows`;
otherwise it slices the sampled row list, so both cases are covered by
slicing `rs`. -/
def make_rownums (numThreads : ℕ) (rs : List ℕ) (t : ℕ) : List ℕ :=
  let rpt := calc_rows_per_thread rs.length numThreads
  let b := t * rpt
  let e := if t < numThreads - 1 then (t + 1) * rpt else rs.length
  (rs.take e).drop b

/-- The per-thread slices in thread order. -/
def threadSlices (numThreads : ℕ) (rs : List ℕ) : List (List ℕ) :=
  (List.range numThreads).map (make_rownums numThreads rs)

/-- Generic segment decomposition: slicing `rs` at the boundaries
`0, rpt, 2·rpt, …` with the final slice running to the end recovers `rs`
when joined, for any chunk size `rpt`. -/
theorem join_chunks (rpt : ℕ) :
    ∀ (numThreads : ℕ) (rs : List ℕ), 1 ≤ numThreads →
    ((List.range numThreads).map
      (fun t => if t < numThreads - 1
        then (rs.drop (t * rpt)).take rpt
        else rs.drop ((numThreads - 1) * rpt))).flatten = rs := by
  intro numThreads
  induction numThreads with
  | zero => intro rs h; omega
  | succ n ih =>
    intro rs _
    by_cases hn : n = 0
    · subst hn
      simp
    · rw [List.range_succ_eq_map]
      rw [List.map_cons, List.flatten_cons]
      have h0 : (0 : ℕ) < n + 1 - 1 := by omega
      rw [if_pos h0]
      simp only [Nat.zero_mul, List.drop_zero]
      have hmap : ((List.range n).map (fun t => t + 1)).map
          (fun t => if t < n + 1 - 1
            then (rs.drop (t * rpt)).take rpt
            else rs.drop ((n + 1 - 1) * rpt))
          = (List.range n).map
            (fun t => if t < n - 1
              then ((rs.drop rpt).drop (t * rpt)).take rpt
              else (rs.drop rpt).drop ((n - 1) * rpt)) := by
        rw [List.map_map]
        apply List.map_congr_left
        intro t ht
        rw [List.mem_range] at ht
        simp only [Function.comp]
        by_cases htn : t + 1 < n + 1 - 1
        · rw [if_pos htn, if_pos (by omega)]
          rw [List.drop_drop]
          have : rpt + t * rpt = (t + 1) * rpt := by ring
          rw [this]
        · rw [if_neg htn, if_neg (by omega)]
          rw [List.drop_drop]
          have : rpt + (n - 1) * rpt = (n + 1 - 1) * rpt := by
            have hn1 : 1 ≤ n := by omega
            calc rpt + (n - 1) * rpt = (n - 1 + 1) * rpt := by ring
            _ = (n + 1 - 1) * rpt := by congr 1; omega
          rw [this]
      rw [hmap, ih (rs.drop rpt) (by omega)]
      exact List.take_append_drop rpt rs

/-- The thread slices of `make_rownums` are the chunks of `join_chunks`. -/
theorem make_rownums_eq_chunk (numThreads : ℕ) (rs : List ℕ) (t : ℕ) :
    make_rownums numThreads rs t
      = (if t < numThreads - 1
          then (rs.drop (t * calc_rows_per_thread rs.length numThreads)).take
            (calc_rows_per_thread rs.length numThreads)
          else rs.drop (t * calc_rows_per_thread rs.length numThreads)) := by
  rw [make_rownums]
  by_cases ht : t < numThreads - 1
  · rw [if_pos ht, if_pos ht]
    rw [List.drop_take]
    congr 1
    ring_nf
    omega
  · rw [if_neg ht, if_neg ht]
    rw [List.take_length]

/-- Joining the per-thread row slices recovers the full row list: the
partition of `FastProp::make_rownums` covers every row exactly once,
in order. -/
theorem threadSlices_join (numThreads : ℕ) (rs : List ℕ)
    (h : 1 ≤ numThreads) :
    (threadSlices numThreads rs).flatten = rs := by
  rw [threadSlices]
  have hmap : (List.range numThreads).map (make_rownums numThreads rs)
      = (List.range numThreads).map
        (fun t => if t < numThreads - 1
          then (rs.drop (t * calc_rows_per_thread rs.length numThreads)).take
            (calc_rows_per_thread rs.length numThreads)
          else rs.drop
            ((numThreads - 1) * calc_rows_per_thread rs.length numThreads)) := by
    apply List.map_congr_left
    intro t ht
    rw [List.mem_range] at ht
    rw [make_rownums_eq_chunk]
    by_cases htn : t < numThreads - 1
    · rw [if_pos htn, if_pos htn]
    · rw [if_neg htn, if_neg htn]
      have : t = numThreads - 1 := by omega
      rw [this]
  rw [hmap]
  exact join_chunks _ numThreads rs h

/-- One thread's writes (`FastProp::build_rows` with
`FastProp::cache_to_features`): each row number of the thread's slice
receives the row computed by `build_row` for that row number.  The feature
container is modelled as a map from row number to row contents. -/
def writeRows (rowFn : ℕ → List ℚ) (slice : List ℕ) (m : ℕ → List ℚ) :
    ℕ → List ℚ :=
  slice.foldl (fun acc r => Function.update acc r (rowFn r)) m

/-- `FastProp::spawn_threads` followed by the per-thread
`FastProp::build_rows`: every thread writes the rows of its disjoint slice
into the shared feature container. -/
def assemble (numThreads : ℕ) (rs : List ℕ) (rowFn : ℕ → List ℚ) :
    ℕ → List ℚ :=
  (threadSlices numThreads rs).foldl
    (fun m slice => writeRows rowFn slice m) (fun _ => [])

theorem writeRows_apply (rowFn : ℕ → List ℚ) (slice : List ℕ)
    (m : ℕ → List ℚ) (r : ℕ) :
    writeRows rowFn slice m r = if r ∈ slice then rowFn r else m r := by
  induction slice generalizing m with
  | nil => simp [writeRows]
  | cons s tl ih =>
    rw [writeRows, List.foldl_cons]
    rw [show (tl.foldl (fun acc r => Function.update acc r (rowFn r))
      (Function.update m s (rowFn s)))
      = writeRows rowFn tl (Function.update m s (rowFn s)) from rfl]
    rw [ih]
    by_cases htl : r ∈ tl
    · rw [if_pos htl, if_pos (List.mem_cons_of_mem s htl)]
    · rw [if_neg htl]
      by_cases hs : r = s
      · subst hs
        rw [if_pos (List.mem_cons_self r tl)]
        simp [Function.update]
      · rw [if_neg (by simp [hs, htl])]
        simp [Function.update, hs]

theorem foldl_writeRows_apply (rowFn : ℕ → List ℚ) (slices : List (List ℕ))
    (m : ℕ → List ℚ) (r : ℕ) :
    slices.foldl (fun acc slice => writeRows rowFn slice acc) m r
      = if r ∈ slices.flatten then rowFn r else m r := by
  induction slices generalizing m with
  | nil => simp
  | cons s tl ih =>
    rw [List.foldl_cons, ih, List.flatten_cons]
    by_cases htl : r ∈ tl.flatten
    · rw [if_pos htl, if_pos (List.mem_append_right s htl)]
    · rw [if_neg htl, writeRows_apply]
      by_cases hs : r ∈ s
      · rw [if_pos hs, if_pos (List.mem_append_left _ hs)]
      · rw [if_neg hs, if_neg (by simp [hs, htl])]

/-- C7.  **Determinism** of the FastProp transform: the feature-matrix row
written for any sampled population row equals the per-row computation
`rowFn` (the embedding of `build_row`) regardless of the number of worker
threads — in particular two runs with the same population, peripherals,
hyperparameters, PRNG stream and `num_threads` produce identical matrices,
because row sampling (`sample_from_population`, driven by a
default-seeded `std::mt19937`), candidate enumeration and selection are
pure functions of their inputs and the thread partition
(`make_rownums`) covers each sampled row exactly once. -/
theorem transform_deterministic (t1 t2 : ℕ) (h1 : 1 ≤ t1) (h2 : 1 ≤ t2)
    (stream : ℕ → ℚ) (samplingFactor : ℚ) (nrows : ℕ) (rowFn : ℕ → List ℚ)
    (r : ℕ) (hr : r ∈ sample_from_population stream samplingFactor nrows) :
    assemble t1 (sample_from_population stream samplingFactor nrows) rowFn r
        = rowFn r ∧
      assemble t1 (sample_from_population stream samplingFactor nrows) rowFn r
        = assemble t2 (sample_from_population stream samplingFactor nrows)
            rowFn r := by
  have key : ∀ t, 1 ≤ t →
      assemble t (sample_from_population stream samplingFactor nrows) rowFn r
        = rowFn r := by
    intro t ht
    rw [assemble, foldl_writeRows_apply]
    rw [threadSlices_join _ _ ht]
    rw [if_pos hr]
  exact ⟨key t1 h1, (key t1 h1).trans (key t2 h2).symm⟩

/-- Witness for `transform_deterministic` at a concrete input. -/
theorem transform_deterministic_witness :
    ((1:ℕ) ≤ 2 ∧ (1:ℕ) ≤ 3 ∧
        2 ∈ sample_from_population (fun _ => 0) 1 4) ∧
      assemble 2 (sample_from_population (fun _ => 0) 1 4)
          (fun i => [(i : ℚ)]) 2
        = (fun i => [(i : ℚ)]) 2 :=
  ⟨⟨by decide, by decide, by decide⟩,
   (transform_deterministic 2 3 (by decide) (by decide)
     (fun _ => 0) 1 4 (fun i => [(i : ℚ)]) 2 (by decide)).1⟩

/-! ## Dependency cache (`DataFrameTracker`)

`src/src/engine/src/engine/DataFrameTracker.cpp` and
`src/src/engine/include/engine/dependency/DataFrameTracker.hpp`.
-/

/-- A data frame as seen by the dependency tracker: its name, its
`last_change` stamp, and its build history (the record derived from
`(dependencies, population, peripherals)`). -/
structure TrackedDF where
  name : String
  lastChange : String
  buildHistory : List String
deriving DecidableEq, Repr

/-- The tracker state `pairs_ : std::map<size_t, std::pair<std::string,
std::string>>` mapping a build-history hash to `(name, last_change)`. -/
structure DataFrameTracker where
  pairs : List (ℕ × String × String)
deriving DecidableEq, Repr

/-- Model of `json::to_json` on a build history (external serialisation
library; any serialisation yielding a non-empty string exhibits the same
behaviour). -/
def jsonOfBuildHistory (bh : List String) : String :=
  "[" ++ String.intercalate "," bh ++ "]"

/-- `DataFrameTracker::get_df`: look up the hash in `pairs_`; return the
frame iff the stored name still exists in the process-wide frame map and
its `last_change` equals the stored one. -/
def get_df (t : DataFrameTracker) (dfs : List TrackedDF) (bHash : ℕ) :
    Option TrackedDF :=
  match t.pairs.find? (fun p => p.1 == bHash) with
  | none => none
  | some p =>
    match dfs.find? (fun df => df.name == p.2.1) with
    | none => none
    | some df => if df.lastChange == p.2.2 then some df else none

/-- `DataFrameTracker::clean_up`: drop every entry whose frame can no
longer be retrieved. -/
def tracker_clean_up (t : DataFrameTracker) (dfs : List TrackedDF) :
    DataFrameTracker :=
  ⟨t.pairs.filter (fun p => (get_df t dfs p.1).isSome)⟩

/-- `DataFrameTracker::add`: clean up, hash the serialised build history
of the frame (`std::hash<std::string>` is the external `hash` parameter),
and `insert_or_assign` the `(name, last_change)` pair. -/
def tracker_add (hash : String → ℕ) (t : DataFrameTracker)
    (dfs : List TrackedDF) (df : TrackedDF) : DataFrameTracker :=
  let t1 := tracker_clean_up t dfs
  let bHash := hash (jsonOfBuildHistory df.buildHistory)
  if t1.pairs.any (fun p => p.1 == bHash) then
    ⟨t1.pairs.map (fun p =>
      if p.1 == bHash then (bHash, df.name, df.lastChange) else p)⟩
  else ⟨t1.pairs ++ [(bHash, df.name, df.lastChange)]⟩

/-- `DataFrameTracker::retrieve` (lines 112-122 of the source): the body
reads `const auto b_str = std::string();  // JSON::stringify(*_build_history)`
— the serialisation of the given build history is commented out behind a
`TODO`, so the hashed string is always the empty string and the
`_build_history` argument is ignored. -/
def tracker_retrieve (hash : String → ℕ) (t : DataFrameTracker)
    (dfs : List TrackedDF) (_buildHistory : List String) :
    Option TrackedDF :=
  get_df t dfs (hash "")

/-- C5.  `DataFrameTracker::retrieve` does **not** recompute the
fingerprint hash from the given build history: (i) its result is
independent of the build history argument for every hash function, every
tracker state and every frame map; and (ii) in the concrete scenario where
a frame was added under build history `["dep"]`, is still live and has an
unchanged `last_change` — so the claim requires `retrieve` to return it —
the code returns nothing, because it looks up the hash of the empty string
instead of the hash of the serialised build history. -/
theorem retrieve_ignores_build_history :
    (∀ (hash : String → ℕ) (t : DataFrameTracker) (dfs : List TrackedDF)
      (b1 b2 : List String),
      tracker_retrieve hash t dfs b1 = tracker_retrieve hash t dfs b2) ∧
    (let df0 : TrackedDF := ⟨"df1", "t1", ["dep"]⟩
     let dfs := [df0]
     let t1 := tracker_add String.length ⟨[]⟩ dfs df0
     (t1.pairs.find? (fun p =>
        p.1 == String.length (jsonOfBuildHistory df0.buildHistory)))
        = some (String.length (jsonOfBuildHistory df0.buildHistory),
                "df1", "t1") ∧
       get_df t1 dfs (String.length (jsonOfBuildHistory df0.buildHistory))
        = some df0 ∧
       tracker_retrieve String.length t1 dfs df0.buildHistory = none) := by
  constructor
  · intro hash t dfs b1 b2
    rfl
  · refine ⟨?_, ?_, ?_⟩ <;> rfl

/-! ## CategoryTrimmer (`src/src/engine/src/engine/CategoryTrimmer.cpp`)

`make_map` / `make_counts` / `make_category_set` (lines 143-203) and
`transform_df` (lines 267-317).
-/

/-- `helpers::NullChecker::is_null` for integer category ids.  The header
is not under `src/`.  Modelled from the spec: §3 Column invariants,
"null semantics defined per T (…; Int: sentinel < 0)". -/
def intIsNull (v : ℤ) : Bool :=
  decide (v < 0)

/-- One `count_map[val]++` step of `CategoryTrimmer::make_map`, keeping the
association list ordered by key exactly as `std::map` does. -/
def insertCount : List (ℤ × ℕ) → ℤ → List (ℤ × ℕ)
  | [], v => [(v, 1)]
  | (k, c) :: tl, v =>
    if v < k then (v, 1) :: (k, c) :: tl
    else if v = k then (k, c + 1) :: tl
    else (k, c) :: insertCount tl v

/-- `CategoryTrimmer::make_map`: per-value occurrence counts of the
non-null entries of the column, keyed in ascending order. -/
def make_map (col : List ℤ) : List (ℤ × ℕ) :=
  col.foldl (fun m v => if intIsNull v then m else insertCount m v) []

instance pairCountTotal : IsTotal (ℤ × ℕ) (fun p q => q.2 ≤ p.2) :=
  ⟨fun p q => le_total q.2 p.2⟩

instance pairCountTrans : IsTrans (ℤ × ℕ) (fun p q => q.2 ≤ p.2) :=
  ⟨fun _ _ _ h1 h2 => le_trans h2 h1⟩

instance pairCountRefl : IsRefl (ℤ × ℕ) (fun p q => q.2 ≤ p.2) :=
  ⟨fun p => le_refl p.2⟩

/-- `CategoryTrimmer::make_counts`: the count map as a vector of pairs
sorted by count, descending (`by_count` comparator). -/
def make_counts (col : List ℤ) : List (ℤ × ℕ) :=
  (make_map col).insertionSort (fun p q => q.2 ≤ p.2)

/-- `CategoryTrimmer::make_category_set`: among the counted values, filter
those with `count ≥ min_freq`, take the first `max_num_categories` of the
descending-count order, and keep their ids. -/
def make_category_set (maxNumCategories minFreq : ℕ) (col : List ℤ) :
    List ℤ :=
  (((make_counts col).filter (fun p => minFreq ≤ p.2)).take
    maxNumCategories).map Prod.fst

/-- The `trim_value` lambda of `CategoryTrimmer::transform_df`: values
outside the kept set (nulls included, since nulls are never counted) are
rewritten to the `trimmed` id. -/
def trim_value (kept : List ℤ) (trimmed : ℤ) (v : ℤ) : ℤ :=
  if v ∈ kept then v else trimmed

/-- The `make_trimmed_column` loop of `CategoryTrimmer::transform_df`. -/
def transform_column (kept : List ℤ) (trimmed : ℤ) (col : List ℤ) :
    List ℤ :=
  col.map (trim_value kept trimmed)

/-- The count stored for id `v` in an association list (0 when absent). -/
def countOf (m : List (ℤ × ℕ)) (v : ℤ) : ℕ :=
  ((m.find? (fun p => p.1 == v)).map Prod.snd).getD 0

/-- Keys of the association list are strictly ascending (the `std::map`
invariant). -/
def KeysSorted (m : List (ℤ × ℕ)) : Prop :=
  (m.map Prod.fst).Pairwise (· < ·)

theorem mem_keys_insertCount (m : List (ℤ × ℕ)) (v w : ℤ)
    (hw : w ∈ (insertCount m v).map Prod.fst) :
    w = v ∨ w ∈ m.map Prod.fst := by
  induction m with
  | nil =>
    simp [insertCount] at hw
    exact Or.inl hw
  | cons p tl ih =>
    obtain ⟨k, c⟩ := p
    rw [insertCount] at hw
    by_cases h1 : v < k
    · rw [if_pos h1] at hw
      simp only [List.map_cons, List.mem_cons] at hw ⊢
      tauto
    · rw [if_neg h1] at hw
      by_cases h2 : v = k
      · rw [if_pos h2] at hw
        simp only [List.map_cons, List.mem_cons] at hw ⊢
        tauto
      · rw [if_neg h2] at hw
        simp only [List.map_cons, List.mem_cons] at hw ⊢
        rcases hw with h | h
        · tauto
        · rcases ih h with h' | h' <;> tauto

theorem keysSorted_insertCount (m : List (ℤ × ℕ)) (v : ℤ)
    (h : KeysSorted m) : KeysSorted (insertCount m v) := by
  induction m with
  | nil =>
    simp [insertCount, KeysSorted]
  | cons p tl ih =>
    obtain ⟨k, c⟩ := p
    rw [KeysSorted, List.map_cons, List.pairwise_cons] at h
    obtain ⟨hk, htl⟩ := h
    rw [insertCount]
    by_cases h1 : v < k
    · rw [if_pos h1]
      rw [KeysSorted]
      simp only [List.map_cons, List.pairwise_cons]
      refine ⟨?_, ?_, htl⟩
      · intro a ha
        simp only [List.mem_cons] at ha
        rcases ha with rfl | ha
        · exact h1
        · exact lt_trans h1 (hk a ha)
      · exact hk
    · rw [if_neg h1]
      by_cases h2 : v = k
      · rw [if_pos h2]
        rw [KeysSorted]
        simp only [List.map_cons, List.pairwise_cons]
        exact ⟨hk, htl⟩
      · rw [if_neg h2]
        rw [KeysSorted]
        simp only [List.map_cons, List.pairwise_cons]
        refine ⟨?_, ih htl⟩
        intro a ha
        rcases mem_keys_insertCount tl v a ha with rfl | ha'
        · omega
        · exact hk a ha'

theorem countOf_nil (v : ℤ) : countOf [] v = 0 := rfl

theorem countOf_cons_self (k : ℤ) (c : ℕ) (tl : List (ℤ × ℕ)) :
    countOf ((k, c) :: tl) k = c := by
  rw [countOf, List.find?_cons_of_pos _ (by simp)]
  rfl

theorem countOf_cons_ne (k : ℤ) (c : ℕ) (tl : List (ℤ × ℕ)) (w : ℤ)
    (h : k ≠ w) : countOf ((k, c) :: tl) w = countOf tl w := by
  rw [countOf, List.find?_cons_of_neg _ (by simp [h])]
  rfl

theorem countOf_eq_zero_of_keys_gt (m : List (ℤ × ℕ)) (v : ℤ)
    (h : ∀ k ∈ m.map Prod.fst, v < k) : countOf m v = 0 := by
  rw [countOf]
  have : m.find? (fun p => p.1 == v) = none := by
    rw [List.find?_eq_none]
    intro p hp
    have hk := h p.1 (List.mem_map_of_mem _ hp)
    simp only [beq_iff_eq]
    omega
  rw [this]
  rfl

theorem countOf_insertCount_self (m : List (ℤ × ℕ)) (v : ℤ)
    (h : KeysSorted m) :
    countOf (insertCount m v) v = countOf m v + 1 := by
  induction m with
  | nil =>
    rw [insertCount, countOf_cons_self, countOf_nil]
  | cons p tl ih =>
    obtain ⟨k, c⟩ := p
    rw [KeysSorted, List.map_cons, List.pairwise_cons] at h
    obtain ⟨hk, htl⟩ := h
    rw [insertCount]
    by_cases h1 : v < k
    · rw [if_pos h1]
      have hvtl : countOf ((k, c) :: tl) v = 0 := by
        rw [countOf_cons_ne _ _ _ _ (by omega)]
        exact countOf_eq_zero_of_keys_gt tl v
          (fun k' hk' => lt_trans h1 (hk k' hk'))
      rw [hvtl, countOf_cons_self]
    · rw [if_neg h1]
      by_cases h2 : v = k
      · subst h2
        rw [if_pos rfl]
        rw [countOf_cons_self, countOf_cons_self]
      · rw [if_neg h2]
        rw [countOf_cons_ne _ _ _ _ (by omega),
          countOf_cons_ne _ _ _ _ (by omega)]
        exact ih htl

theorem countOf_insertCount_ne (m : List (ℤ × ℕ)) (v w : ℤ) (hne : w ≠ v) :
    countOf (insertCount m v) w = countOf m w := by
  induction m with
  | nil =>
    rw [insertCount, countOf_cons_ne _ _ _ _ (by omega)]
  | cons p tl ih =>
    obtain ⟨k, c⟩ := p
    rw [insertCount]
    by_cases h1 : v < k
    · rw [if_pos h1]
      rw [countOf_cons_ne _ _ _ _ (by omega)]
    · rw [if_neg h1]
      by_cases h2 : v = k
      · subst h2
        rw [if_pos rfl]
        rw [countOf_cons_ne _ _ _ _ (by omega),
          countOf_cons_ne _ _ _ _ (by omega)]
      · rw [if_neg h2]
        by_cases h3 : k = w
        · subst h3
          rw [countOf_cons_self, countOf_cons_self]
        · rw [countOf_cons_ne _ _ _ _ h3, countOf_cons_ne _ _ _ _ h3]
          exact ih

/-- The running count map always holds exactly the non-null occurrence
counts of the processed prefix. -/
theorem make_map_invariant (col : List ℤ) :
    ∀ (m : List (ℤ × ℕ)), KeysSorted m →
      KeysSorted (col.foldl
        (fun m v => if intIsNull v then m else insertCount m v) m) ∧
      ∀ v : ℤ, countOf (col.foldl
          (fun m v => if intIsNull v then m else insertCount m v) m) v
        = countOf m v + (col.filter (fun x => !intIsNull x)).count v := by
  induction col with
  | nil =>
    intro m hm
    exact ⟨hm, fun v => by simp⟩
  | cons a tl ih =>
    intro m hm
    rw [List.foldl_cons, List.filter_cons]
    by_cases ha : intIsNull a
    · rw [if_pos ha]
      have : (!intIsNull a) = false := by rw [ha]; rfl
      rw [this]
      simp only [Bool.false_eq_true, if_false]
      exact ih m hm
    · rw [if_neg ha]
      have : (!intIsNull a) = true := by
        rw [Bool.not_eq_true', ← Bool.not_eq_true]
        exact ha
      rw [this]
      simp only [if_true]
      obtain ⟨hs, hc⟩ := ih (insertCount m a) (keysSorted_insertCount m a hm)
      refine ⟨hs, fun v => ?_⟩
      rw [hc v]
      by_cases hv : v = a
      · subst hv
        rw [countOf_insertCount_self m v hm]
        rw [List.count_cons_self]
        omega
      · rw [countOf_insertCount_ne m a v hv]
        rw [List.count_cons_of_ne hv]

theorem make_map_keysSorted (col : List ℤ) : KeysSorted (make_map col) :=
  (make_map_invariant col [] (by simp [KeysSorted])).1

theorem make_map_countOf (col : List ℤ) (v : ℤ) :
    countOf (make_map col) v
      = (col.filter (fun x => !intIsNull x)).count v := by
  have := (make_map_invariant col [] (by simp [KeysSorted])).2 v
  rw [make_map, this]
  simp [countOf]

/-- With strictly ascending keys, membership determines the stored count. -/
theorem countOf_of_mem (m : List (ℤ × ℕ)) (v : ℤ) (c : ℕ)
    (hs : KeysSorted m) (hmem : (v, c) ∈ m) : countOf m v = c := by
  induction m with
  | nil => simp at hmem
  | cons p tl ih =>
    obtain ⟨k, kc⟩ := p
    rw [KeysSorted, List.map_cons, List.pairwise_cons] at hs
    obtain ⟨hk, htl⟩ := hs
    rw [List.mem_cons] at hmem
    rcases hmem with heq | hmem
    · rw [Prod.mk.injEq] at heq
      obtain ⟨rfl, rfl⟩ := heq
      rw [countOf_cons_self]
    · have hvk : k ≠ v := by
        have : v ∈ tl.map Prod.fst :=
          List.mem_map_of_mem _ hmem
        have := hk v this
        omega
      rw [countOf_cons_ne _ _ _ _ hvk]
      exact ih htl hmem

/-- A positive count means the pair is present. -/
theorem mem_of_countOf_pos (m : List (ℤ × ℕ)) (v : ℤ)
    (h : 0 < countOf m v) : (v, countOf m v) ∈ m := by
  induction m with
  | nil => simp [countOf] at h
  | cons p tl ih =>
    obtain ⟨k, kc⟩ := p
    by_cases hk : k = v
    · subst hk
      rw [countOf_cons_self]
      exact List.mem_cons_self _ _
    · rw [countOf_cons_ne _ _ _ _ hk] at h ⊢
      exact List.mem_cons_of_mem _ (ih h)

theorem make_counts_perm (col : List ℤ) :
    List.Perm (make_counts col) (make_map col) :=
  List.perm_insertionSort _ _

theorem make_counts_sorted (col : List ℤ) :
    (make_counts col).Sorted (fun p q : ℤ × ℕ => q.2 ≤ p.2) :=
  List.sorted_insertionSort _ _

theorem insertCount_pos (m : List (ℤ × ℕ)) (v : ℤ)
    (h : ∀ p ∈ m, 0 < p.2) : ∀ p ∈ insertCount m v, 0 < p.2 := by
  induction m with
  | nil =>
    intro p hp
    simp only [insertCount, List.mem_singleton] at hp
    subst hp
    omega
  | cons q tl ih =>
    obtain ⟨k, c⟩ := q
    intro p hp
    rw [insertCount] at hp
    by_cases h1 : v < k
    · rw [if_pos h1] at hp
      rcases List.mem_cons.mp hp with rfl | hp'
      · omega
      · exact h p hp'
    · rw [if_neg h1] at hp
      by_cases h2 : v = k
      · rw [if_pos h2] at hp
        rcases List.mem_cons.mp hp with rfl | hp'
        · omega
        · exact h p (List.mem_cons_of_mem _ hp')
      · rw [if_neg h2] at hp
        rcases List.mem_cons.mp hp with rfl | hp'
        · exact h _ (List.mem_cons_self _ _)
        · exact ih (fun q hq => h q (List.mem_cons_of_mem _ hq)) p hp'

theorem make_map_pos (col : List ℤ) : ∀ p ∈ make_map col, 0 < p.2 := by
  rw [make_map]
  have key : ∀ (m : List (ℤ × ℕ)), (∀ p ∈ m, 0 < p.2) →
      ∀ p ∈ col.foldl
        (fun m v => if intIsNull v then m else insertCount m v) m,
        0 < p.2 := by
    induction col with
    | nil => intro m hm; simpa using hm
    | cons a tl ih =>
      intro m hm
      rw [List.foldl_cons]
      by_cases ha : intIsNull a
      · rw [if_pos ha]
        exact ih m hm
      · rw [if_neg ha]
        exact ih _ (insertCount_pos m a hm)
  exact key [] (by simp)

/-- A pair of `make_counts` records a non-null id together with its exact
occurrence count in the column. -/
theorem mem_make_counts_count (col : List ℤ) (v : ℤ) (c : ℕ)
    (hmem : (v, c) ∈ make_counts col) :
    (0 < c) ∧ ¬intIsNull v ∧ c = col.count v := by
  have hmm : (v, c) ∈ make_map col :=
    (make_counts_perm col).mem_iff.mp hmem
  have hco := countOf_of_mem _ v c (make_map_keysSorted col) hmm
  rw [make_map_countOf] at hco
  have hpos : 0 < c := make_map_pos col (v, c) hmm
  have hvnn : ¬intIsNull v := by
    intro hnull
    have hzero : (col.filter (fun x => !intIsNull x)).count v = 0 := by
      rw [List.count_eq_zero]
      intro hmemf
      have := List.of_mem_filter hmemf
      rw [hnull] at this
      simp at this
    rw [hzero] at hco
    omega
  have hcnt : (col.filter (fun x => !intIsNull x)).count v = col.count v :=
    List.count_filter (by simp [hvnn])
  exact ⟨hpos, hvnn, by omega⟩

/-- Conversely, every non-null occurring id is recorded with its count. -/
theorem count_mem_make_counts (col : List ℤ) (v : ℤ)
    (hvnn : ¬intIsNull v) (hv : v ∈ col) :
    (v, col.count v) ∈ make_counts col := by
  rw [(make_counts_perm col).mem_iff]
  have hpos : 0 < countOf (make_map col) v := by
    rw [make_map_countOf]
    have : v ∈ col.filter (fun x => !intIsNull x) :=
      List.mem_filter.mpr ⟨hv, by simp [hvnn]⟩
    rw [List.count_filter (by simp [hvnn])]
    exact List.count_pos_iff.mpr hv
  have hmem := mem_of_countOf_pos (make_map col) v hpos
  have : countOf (make_map col) v = col.count v := by
    rw [make_map_countOf]
    exact List.count_filter (by simp [hvnn])
  rw [this] at hmem
  exact hmem

/-- C8.  `CategoryTrimmer`: the fitted kept set contains at most
`max_num_categories` ids; each kept id is a non-null value of the column
occurring with count at least `min_freq`; the kept ids are most-frequent
(any strictly more frequent admissible value is also kept); the
transform rewrites each value to itself when kept and to the `trimmed` id
otherwise; and every null value is rewritten to `trimmed`. -/
theorem category_trimmer_correct (maxNumCategories minFreq : ℕ)
    (col : List ℤ) (trimmed : ℤ) :
    (make_category_set maxNumCategories minFreq col).length
        ≤ maxNumCategories ∧
      (∀ v ∈ make_category_set maxNumCategories minFreq col,
        ¬intIsNull v ∧ v ∈ col ∧ minFreq ≤ col.count v) ∧
      (∀ v ∈ make_category_set maxNumCategories minFreq col, ∀ w : ℤ,
        ¬intIsNull w → w ∈ col → col.count v < col.count w →
        w ∈ make_category_set maxNumCategories minFreq col) ∧
      (transform_column (make_category_set maxNumCategories minFreq col)
          trimmed col
        = col.map (fun v =>
            if v ∈ make_category_set maxNumCategories minFreq col
            then v else trimmed)) ∧
      (∀ v ∈ col, intIsNull v →
        trim_value (make_category_set maxNumCategories minFreq col)
          trimmed v = trimmed) := by
  have hmem_pair : ∀ v ∈ make_category_set maxNumCategories minFreq col,
      ∃ c : ℕ, ((v, c) ∈ ((make_counts col).filter
          (fun p => minFreq ≤ p.2)).take maxNumCategories) ∧
        minFreq ≤ c ∧ ¬intIsNull v ∧ c = col.count v := by
    intro v hv
    rw [make_category_set, List.mem_map] at hv
    obtain ⟨p, hp, rfl⟩ := hv
    have hpF := List.mem_of_mem_take hp
    rw [List.mem_filter] at hpF
    obtain ⟨hpc, hpf⟩ := hpF
    have h3 := mem_make_counts_count col p.1 p.2 (by simpa using hpc)
    exact ⟨p.2, by simpa using hp, by simpa using hpf, h3.2.1, h3.2.2⟩
  have hkeptP : ∀ v ∈ make_category_set maxNumCategories minFreq col,
      ¬intIsNull v ∧ v ∈ col ∧ minFreq ≤ col.count v := by
    intro v hv
    obtain ⟨c, _, hfreq, hvnn, hcnt⟩ := hmem_pair v hv
    have hpos : 0 < col.count v := by
      obtain ⟨c', hc', _⟩ := hmem_pair v hv
      have := List.mem_of_mem_take hc'
      rw [List.mem_filter] at this
      have := (mem_make_counts_count col v c' this.1).1
      omega
    exact ⟨hvnn, List.count_pos_iff.mp hpos, by omega⟩
  refine ⟨?_, hkeptP, ?_, rfl, ?_⟩
  · rw [make_category_set, List.length_map]
    exact le_trans (List.length_take_le _ _) (le_refl _)
  · intro v hv w hwnn hwcol hcount
    by_contra hwnot
    obtain ⟨cv, hcv_take, _, _, hcv_eq⟩ := hmem_pair v hv
    have hwF : (w, col.count w) ∈
        (make_counts col).filter (fun p => minFreq ≤ p.2) := by
      rw [List.mem_filter]
      refine ⟨count_mem_make_counts col w hwnn hwcol, ?_⟩
      have := (hkeptP v hv).2.2
      simp only [decide_eq_true_eq]
      omega
    have hwdrop : (w, col.count w) ∈
        ((make_counts col).filter (fun p => minFreq ≤ p.2)).drop
          maxNumCategories := by
      have hsplit := List.take_append_drop maxNumCategories
        ((make_counts col).filter (fun p => minFreq ≤ p.2))
      rw [← hsplit] at hwF
      rcases List.mem_append.mp hwF with h | h
      · exfalso
        apply hwnot
        rw [make_category_set, List.mem_map]
        exact ⟨(w, col.count w), h, rfl⟩
      · exact h
    have hsorted : (((make_counts col).filter
        (fun p => minFreq ≤ p.2))).Sorted (fun p q : ℤ × ℕ => q.2 ≤ p.2) :=
      (make_counts_sorted col).filter _
    have hrel := hsorted.rel_of_mem_take_of_mem_drop hcv_take hwdrop
    simp only at hrel
    omega
  · intro v _ hvnull
    rw [trim_value, if_neg]
    intro hvmem
    exact (hkeptP v hvmem).1 hvnull

/-- Witness for `category_trimmer_correct`, at the spec's own example
(`['a','a','b','c']` as ids `[0,0,1,2]`, `max_num_categories = 1`,
`min_freq = 1`): only `'a'` is kept and transform trims the rest. -/
theorem category_trimmer_correct_witness :
    make_category_set 1 1 [0, 0, 1, 2] = [0] ∧
      transform_column (make_category_set 1 1 [0, 0, 1, 2]) 9 [0, 0, 1, 2]
        = [0, 0, 9, 9] ∧
      (¬intIsNull 0 ∧ (0:ℤ) ∈ [(0:ℤ), 0, 1, 2] ∧
        1 ≤ List.count (0:ℤ) [(0:ℤ), 0, 1, 2]) :=
  ⟨by decide, by decide,
   (category_trimmer_correct 1 1 [0, 0, 1, 2] 9).2.1 0 (by decide)⟩

/-! ## Machine floats with NaN and infinities

Used by `Imputation` (`src/src/engine/src/engine/Imputation.cpp`) and
`FastProp::build_row`.  These components only branch on
`std::isnan`/`std::isinf`, which the tagged representation captures
exactly; finite arithmetic is exact (ℚ).
-/

/-- A machine double: a finite value, NaN, or ±∞. -/
inductive FVal where
  | fin : ℚ → FVal
  | nan : FVal
  | posInf : FVal
  | negInf : FVal
deriving DecidableEq, Repr

/-- `std::isnan`. -/
def FVal.isNan : FVal → Bool
  | .nan => true
  | _ => false

/-- `std::isinf`. -/
def FVal.isInf : FVal → Bool
  | .posInf => true
  | .negInf => true
  | _ => false

/-! ## Imputation (`src/src/engine/src/engine/Imputation.cpp`) -/

/-- `utils::Aggregations::avg` (header not under `src/`).  Modelled from
the spec: §4.5.2 "SUM / AVG / … skipping NaNs" — the mean of the non-NaN
values, NaN when none exist. -/
def avg (col : List FVal) : FVal :=
  let vals := col.filterMap (fun v =>
    match v with
    | .fin q => some q
    | _ => none)
  if vals.length = 0 then .nan else .fin (vals.sum / vals.length)

/-- `Imputation::impute`: replace every NaN entry with the imputation
value; also report whether any replacement happened (`any_imputation`). -/
def impute (col : List FVal) (imputationValue : FVal) :
    List FVal × Bool :=
  (col.map (fun v => if v.isNan then imputationValue else v),
   col.any (fun v => v.isNan))

/-- `Imputation::add_dummy`: the 0/1 indicator column of the NaN
positions. -/
def add_dummy (col : List FVal) : List FVal :=
  col.map (fun v => if v.isNan then FVal.fin 1 else FVal.fin 0)

/-- Output of `Imputation::extract_and_add` for one column. -/
structure ImputedColumn where
  replaced : List FVal
  dummy : Option (List FVal)
deriving DecidableEq, Repr

/-- `Imputation::extract_and_add` (lines 38-76): error when the column is
entirely NaN, error when it contains an infinite value; otherwise impute
with the fitted mean and add a dummy column iff `add_dummies` is set and
at least one value was imputed. -/
def extract_and_add (addDummies : Bool) (col : List FVal) :
    Except String ImputedColumn :=
  if col.all (fun v => v.isNan) then
    .error "Cannot impute: all values are nan."
  else if col.any (fun v => v.isInf) then
    .error "Cannot impute: contains infinite values."
  else
    let mean := avg col
    let result := impute col mean
    let needsDummy := addDummies && result.2
    .ok ⟨result.1, if needsDummy then some (add_dummy col) else none⟩

/-- `Imputation::fit_transform_df`: process the non-excluded numerical
columns in order (the subrole-excluded columns are skipped by the source
before this point, so `cols` ranges over the non-excluded ones); the first
failing column aborts the fit. -/
def fit_transform_df (addDummies : Bool) :
    List (List FVal) → Except String (List ImputedColumn)
  | [] => .ok []
  | c :: tl =>
    match extract_and_add addDummies c with
    | .error e => .error e
    | .ok ic =>
      match fit_transform_df addDummies tl with
      | .error e => .error e
      | .ok rest => .ok (ic :: rest)

/-- C9, counterexample.  A column with no NaN at all and `add_dummies`
set: the source emits **no** dummy column (`needs_dummy` requires
`any_imputation`), while the claim says a dummy column is emitted whenever
`add_dummies` is set. -/
theorem imputation_no_dummy_counterexample :
    extract_and_add true [FVal.fin 1, FVal.fin 2]
      = .ok ⟨[FVal.fin 1, FVal.fin 2], none⟩ ∧
      ¬(∃ d, extract_and_add true [FVal.fin 1, FVal.fin 2]
        = .ok ⟨[FVal.fin 1, FVal.fin 2], some d⟩) := by
  constructor
  · rfl
  · intro ⟨d, hd⟩
    have h1 : extract_and_add true [FVal.fin 1, FVal.fin 2]
        = .ok ⟨[FVal.fin 1, FVal.fin 2], none⟩ := rfl
    rw [h1] at hd
    injection hd with h2
    have h3 := congrArg ImputedColumn.dummy h2
    simp at h3

/-- C9, amended.  The fit fails iff some non-excluded numerical column is
entirely NaN or contains an infinite value; on success, each output column
is the input with every NaN replaced by the fitted (NaN-skipping, finite)
mean, and a dummy column is emitted iff `add_dummies` is set **and** the
column contained at least one NaN. -/
theorem imputation_correct (addDummies : Bool) (cols : List (List FVal)) :
    ((∃ out, fit_transform_df addDummies cols = .ok out) ↔
      ∀ col ∈ cols,
        (¬col.all (fun v => v.isNan)) ∧ ¬col.any (fun v => v.isInf)) ∧
    (∀ out, fit_transform_df addDummies cols = .ok out →
      out.length = cols.length ∧
      ∀ p ∈ cols.zip out,
        (∃ q : ℚ, avg p.1 = .fin q) ∧
        p.2.replaced = p.1.map
          (fun v => if v.isNan then avg p.1 else v) ∧
        p.2.dummy = (if addDummies && p.1.any (fun v => v.isNan)
          then some (add_dummy p.1) else none)) := by
  induction cols with
  | nil =>
    constructor
    · constructor
      · intro _ col hcol
        simp at hcol
      · intro _
        exact ⟨[], rfl⟩
    · intro out hout
      rw [fit_transform_df] at hout
      injection hout with h
      subst h
      exact ⟨rfl, fun p hp => by simp at hp⟩
  | cons c tl ih =>
    have hstep : ∀ ic, extract_and_add addDummies c = .ok ic →
        (∃ q : ℚ, avg c = .fin q) ∧
        ic.replaced = c.map (fun v => if v.isNan then avg c else v) ∧
        ic.dummy = (if addDummies && c.any (fun v => v.isNan)
          then some (add_dummy c) else none) := by
      intro ic hic
      rw [extract_and_add] at hic
      by_cases h1 : c.all (fun v => v.isNan)
      · rw [if_pos h1] at hic
        exact absurd hic (by simp)
      · rw [if_neg h1] at hic
        by_cases h2 : c.any (fun v => v.isInf)
        · rw [if_pos h2] at hic
          exact absurd hic (by simp)
        · rw [if_neg h2] at hic
          injection hic with h3
          subst h3
          refine ⟨?_, rfl, rfl⟩
          rw [avg]
          have : (c.filterMap (fun v =>
              match v with
              | .fin q => some q
              | _ => none)).length ≠ 0 := by
            rw [List.all_eq_true] at h1
            push_neg at h1
            obtain ⟨v, hv, hvn⟩ := h1
            rw [List.any_eq_true] at h2
            push_neg at h2
            have hfin : ∃ q, v = FVal.fin q := by
              cases v with
              | fin q => exact ⟨q, rfl⟩
              | nan => simp [FVal.isNan] at hvn
              | posInf => exact absurd rfl (h2 _ hv)
              | negInf => exact absurd rfl (h2 _ hv)
            obtain ⟨q, rfl⟩ := hfin
            have : q ∈ c.filterMap (fun v =>
                match v with
                | .fin q => some q
                | _ => none) := by
              rw [List.mem_filterMap]
              exact ⟨.fin q, hv, rfl⟩
            have := List.length_pos_of_mem this
            omega
          rw [if_neg this]
          exact ⟨_, rfl⟩
    constructor
    · constructor
      · rintro ⟨out, hout⟩ col hcol
        rw [fit_transform_df] at hout
        rcases hmatch : extract_and_add addDummies c with e | ic
        · rw [hmatch] at hout
          simp at hout
        · rw [hmatch] at hout
          rcases hmatch2 : fit_transform_df addDummies tl with e | rest
          · rw [hmatch2] at hout
            simp at hout
          · rcases List.mem_cons.mp hcol with rfl | hcol'
            · rw [extract_and_add] at hmatch
              by_cases h1 : col.all (fun v => v.isNan)
              · rw [if_pos h1] at hmatch
                exact absurd hmatch (by simp)
              · rw [if_neg h1] at hmatch
                by_cases h2 : col.any (fun v => v.isInf)
                · rw [if_pos h2] at hmatch
                  exact absurd hmatch (by simp)
                · exact ⟨by simpa using h1, by simpa using h2⟩
            · exact (ih.1.mp ⟨rest, hmatch2⟩) col hcol'
      · intro hall
        have hc := hall c (List.mem_cons_self c tl)
        have htl := ih.1.mpr (fun col hcol =>
          hall col (List.mem_cons_of_mem c hcol))
        obtain ⟨rest, hrest⟩ := htl
        rw [fit_transform_df]
        rcases hmatch : extract_and_add addDummies c with e | ic
        · rw [extract_and_add] at hmatch
          rw [if_neg hc.1] at hmatch
          rw [if_neg (by simpa using hc.2)] at hmatch
          simp at hmatch
        · rw [hrest]
          exact ⟨ic :: rest, rfl⟩
    · intro out hout
      rw [fit_transform_df] at hout
      rcases hmatch : extract_and_add addDummies c with e | ic
      · rw [hmatch] at hout
        simp at hout
      · rw [hmatch] at hout
        rcases hmatch2 : fit_transform_df addDummies tl with e | rest
        · rw [hmatch2] at hout
          simp at hout
        · rw [hmatch2] at hout
          injection hout with h
          subst h
          obtain ⟨hlen, hzip⟩ := ih.2 rest hmatch2
          refine ⟨by simpa using hlen, ?_⟩
          intro p hp
          rw [List.zip_cons_cons, List.mem_cons] at hp
          rcases hp with rfl | hp'
          · exact hstep ic hmatch
          · exact hzip p hp'

/-- Witness for `imputation_correct` at a concrete input: one column with
a NaN, one fully finite; the fit succeeds. -/
theorem imputation_correct_witness :
    ∃ out, fit_transform_df true [[FVal.fin 2, FVal.nan], [FVal.fin 5]]
      = .ok out :=
  (imputation_correct true
    [[FVal.fin 2, FVal.nan], [FVal.fin 5]]).1.mpr (by decide)

/-! ## FastProp data model: aggregations, data_used, abstract features

`helpers/enums/Aggregation.hpp` and `AbstractFeature.hpp` are not under
`src/`; the enumerators are the ones named by the spec (§4.5.2 table,
§3 AbstractFeature).
-/

/-- The aggregation enum (spec §4.5.2). -/
inductive Aggregation where
  | count
  | countDistinct
  | countMinusCountDistinct
  | sum
  | avgAgg
  | minAgg
  | maxAgg
  | median
  | stddev
  | variance
  | first
  | last
  | timeSinceFirstEvent
  | timeSinceLastEvent
  | avgTimeBetween
  | trend
  | ewma
deriving DecidableEq, Repr

/-- The `data_used_` enum of `AbstractFeature` (spec §3). -/
inductive DataUsed where
  | categorical
  | discrete
  | na
  | numerical
  | sameUnitsCategorical
  | sameUnitsDiscrete
  | sameUnitsDiscreteTs
  | sameUnitsNumerical
  | sameUnitsNumericalTs
  | subfeatures
  | text
deriving DecidableEq, Repr

/-- A condition narrowing a match set (`containers::Condition`).  Its
payload is carried but never interpreted by the theorems below. -/
structure Condition where
  dataUsed : DataUsed
  inputCol : ℕ
  outputCol : ℕ
  peripheral : ℕ
  categoryUsed : ℤ
  lower : ℚ
  upper : ℚ
deriving DecidableEq, Repr

/-- `containers::AbstractFeature`. -/
structure AbstractFeature where
  aggregation : Aggregation
  conditions : List Condition
  dataUsed : DataUsed
  inputCol : ℕ
  outputCol : ℕ
  peripheral : ℕ
  categoricalValue : ℤ
deriving DecidableEq, Repr

/-- A match `(ix_input, ix_output)` (`containers::Match`). -/
structure Match where
  ixInput : ℕ
  ixOutput : ℕ
deriving DecidableEq, Repr

/-! ## C3: `FastProp::build_row` null-safety

`src/src/engine/src/fastprop/FastProp.cpp` lines 53-102 and
`src/src/engine/src/fastprop/Aggregator.cpp`.
-/

/-- `Aggregator::aggregate_numerical_range` for COUNT (the header holding
the reductions is not under `src/`).  Modelled from the spec: §4.5.2,
"COUNT | `|M|` (after condition filtering)". -/
def countAggregation (range : List FVal) : FVal :=
  .fin range.length

/-- `Aggregator::apply_aggregation` as invoked by `build_row`: the
condition-filtered, projected numeric range
(`memorize_numerical_range`) is reduced by the aggregation.  COUNT is
computed concretely; every other reduction is the external `aggFn`
(`aggregate_numerical_range` / `apply_first_last`, not under `src/`),
which may return any value including NaN/±∞. -/
def apply_aggregation (aggFn : Aggregation → List FVal → FVal)
    (condition : Match → Bool) (extract : Match → FVal)
    (ms : List Match) (f : AbstractFeature) : FVal :=
  if f.aggregation = .count then
    countAggregation ((ms.filter condition).map extract)
  else
    aggFn f.aggregation ((ms.filter condition).map extract)

/-- The guarded cell write of `FastProp::build_row` (line 100):
`_row[i] = (std::isnan(value) || std::isinf(value)) ? 0.0 : value`. -/
def write_cell (value : FVal) : FVal :=
  if value.isNan || value.isInf then .fin 0 else value

/-- `FastProp::build_row`: for each selected feature (paired with its
condition function), aggregate its match set and write the guarded value
into the row. -/
def build_row (aggFn : Aggregation → List FVal → FVal)
    (matchesFor : ℕ → List Match)
    (extractFor : AbstractFeature → Match → FVal)
    (features : List AbstractFeature)
    (condFns : List (Match → Bool)) : List FVal :=
  (features.zip condFns).map (fun p =>
    write_cell (apply_aggregation aggFn p.2 (extractFor p.1)
      (matchesFor p.1.peripheral) p.1))

/-- C3.  **Aggregation null-safety** of `FastProp::build_row`: every value
written into the feature matrix is finite (never NaN, never ±∞) — even if
the external numeric reduction returns NaN or ±∞ — because the write is
guarded; a COUNT aggregation over an empty match set writes `0.0`; and any
NaN or infinite aggregation result is replaced by `0.0` at the write. -/
theorem build_row_null_safety (aggFn : Aggregation → List FVal → FVal)
    (matchesFor : ℕ → List Match)
    (extractFor : AbstractFeature → Match → FVal)
    (features : List AbstractFeature) (condFns : List (Match → Bool)) :
    (∀ v ∈ build_row aggFn matchesFor extractFor features condFns,
      ∃ q : ℚ, v = .fin q) ∧
    (∀ p ∈ features.zip condFns, p.1.aggregation = .count →
      matchesFor p.1.peripheral = [] →
      write_cell (apply_aggregation aggFn p.2 (extractFor p.1)
        (matchesFor p.1.peripheral) p.1) = .fin 0) ∧
    (∀ value : FVal, (value.isNan || value.isInf) = true →
      write_cell value = .fin 0) := by
  refine ⟨?_, ?_, ?_⟩
  · intro v hv
    rw [build_row, List.mem_map] at hv
    obtain ⟨p, _, rfl⟩ := hv
    rw [write_cell]
    rcases hval : apply_aggregation aggFn p.2 (extractFor p.1)
      (matchesFor p.1.peripheral) p.1 with q | _ | _ | _
    · rw [if_neg (by simp [FVal.isNan, FVal.isInf])]
      exact ⟨q, rfl⟩
    · rw [if_pos (by simp [FVal.isNan])]
      exact ⟨0, rfl⟩
    · rw [if_pos (by simp [FVal.isInf])]
      exact ⟨0, rfl⟩
    · rw [if_pos (by simp [FVal.isInf])]
      exact ⟨0, rfl⟩
  · intro p _ hagg hempty
    rw [apply_aggregation, if_pos hagg, hempty]
    rw [show ((([] : List Match).filter p.2).map (extractFor p.1)) = []
      from rfl]
    rw [countAggregation]
    rfl
  · intro value hv
    rw [write_cell, if_pos hv]

/-! ## C4: candidate enumeration (`FastProp::fit_on_peripheral` and the
`fit_on_*` family, `FastProp.cpp` lines 556-926, plus
`FastProp::skip_first_last`, lines 1513-1522, and
`FastProp::find_most_frequent_categories`, lines 424-455).
-/

/-- A staged data frame as seen by candidate enumeration: per-role column
units/names, the categorical column data, and the number of time-stamp
columns. -/
structure EDataFrame where
  categoricalUnits : List String
  categoricalCols : List (List ℤ)
  discreteUnits : List String
  discreteNames : List String
  numericalUnits : List String
  numericalNames : List String
  numTimeStamps : ℕ
deriving DecidableEq, Repr

/-- The hyperparameters used by enumeration. -/
structure Hyperparameters where
  aggregation : List Aggregation
  nMostFrequent : ℕ
  numFeatures : ℕ
deriving DecidableEq, Repr

/-- Substring scan over the character list. -/
def containsSub : List Char → List Char → Bool
  | [], p => p.isEmpty
  | c :: rest, p => p.isPrefixOf (c :: rest) || containsSub rest p

/-- `unit.find("comparison only") != npos`. -/
def containsComparisonOnly (u : String) : Bool :=
  containsSub u.data "comparison only".data

/-- `FastProp::is_categorical`. -/
def is_categorical (agg : Aggregation) : Bool :=
  agg = .countDistinct || agg = .countMinusCountDistinct

/-- `FastProp::is_numerical`. -/
def is_numerical (agg : Aggregation) : Bool :=
  agg != .count

/-- `Aggregator::is_first_last` (header not under `src/`).  Modelled from
the spec: the time-anchored aggregations are "FIRST, LAST, TIME SINCE
{FIRST, LAST} EVENT, TREND, AVG TIME BETWEEN" (§4.5.1). -/
def is_first_last (agg : Aggregation) : Bool :=
  agg = .first || agg = .last || agg = .timeSinceFirstEvent
    || agg = .timeSinceLastEvent || agg = .avgTimeBetween || agg = .trend

/-- `FastProp::skip_first_last`: skip a time-anchored aggregation when
either side lacks a time-stamp column. -/
def skip_first_last (agg : Aggregation) (pop peri : EDataFrame) : Bool :=
  is_first_last agg
    && (pop.numTimeStamps == 0 || peri.numTimeStamps == 0)

/-- `FastProp::find_most_frequent_categories`: count every value (nulls
included), order by count descending, then keep the non-null keys, at most
`n_most_frequent` of them. -/
def find_most_frequent_categories (nMostFrequent : ℕ) (col : List ℤ) :
    List ℤ :=
  ((((col.foldl insertCount []).insertionSort
      (fun p q => q.2 ≤ p.2)).map Prod.fst).filter
    (fun v => decide (0 ≤ v))).take nMostFrequent

/-- `FastProp::has_count` (header not under `src/`).  Modelled from the
spec: "Count … features are always admitted where applicable" — the COUNT
feature is admitted when COUNT is among the configured aggregations. -/
def has_count (hyper : Hyperparameters) : Bool :=
  hyper.aggregation.contains .count

/-- The sentinel `AbstractFeature::NO_CATEGORICAL_VALUE`. -/
def noCategoricalValue : ℤ := -1

/-- `FastProp::fit_on_categoricals`: categorical aggregations over the
non-comparison-only categorical columns, unless a categorical condition is
present. -/
def fit_on_categoricals (peri : EDataFrame) (ix : ℕ)
    (conds : List Condition) (hyper : Hyperparameters) :
    List AbstractFeature :=
  (List.range peri.categoricalUnits.length).flatMap (fun inputCol =>
    if containsComparisonOnly (peri.categoricalUnits.getD inputCol "") then
      []
    else if conds.any (fun c => c.dataUsed = .categorical) then []
    else
      (hyper.aggregation.filter is_categorical).map (fun agg =>
        ⟨agg, conds, .categorical, inputCol, 0, ix, noCategoricalValue⟩))

/-- `FastProp::fit_on_categoricals_by_categories`: numerical aggregations
of the indicator of each most-frequent category. -/
def fit_on_categoricals_by_categories (pop peri : EDataFrame) (ix : ℕ)
    (conds : List Condition) (hyper : Hyperparameters) :
    List AbstractFeature :=
  (List.range peri.categoricalUnits.length).flatMap (fun inputCol =>
    if containsComparisonOnly (peri.categoricalUnits.getD inputCol "") then
      []
    else if conds.any (fun c => c.dataUsed = .categorical) then []
    else
      (find_most_frequent_categories hyper.nMostFrequent
        (peri.categoricalCols.getD inputCol [])).flatMap (fun catValue =>
          (hyper.aggregation.filter (fun agg =>
            is_numerical agg && !skip_first_last agg pop peri)).map
            (fun agg => ⟨agg, conds, .categorical, inputCol, 0, ix,
              catValue⟩)))

/-- `FastProp::fit_on_discretes`. -/
def fit_on_discretes (pop peri : EDataFrame) (ix : ℕ)
    (conds : List Condition) (hyper : Hyperparameters) :
    List AbstractFeature :=
  (List.range peri.discreteUnits.length).flatMap (fun inputCol =>
    (hyper.aggregation.filter (fun agg =>
      is_numerical agg
        && !containsComparisonOnly (peri.discreteUnits.getD inputCol "")
        && !skip_first_last agg pop peri)).map (fun agg =>
      ⟨agg, conds, .discrete, inputCol, 0, ix, noCategoricalValue⟩))

/-- `FastProp::fit_on_numericals`. -/
def fit_on_numericals (pop peri : EDataFrame) (ix : ℕ)
    (conds : List Condition) (hyper : Hyperparameters) :
    List AbstractFeature :=
  (List.range peri.numericalUnits.length).flatMap (fun inputCol =>
    (hyper.aggregation.filter (fun agg =>
      is_numerical agg
        && !containsComparisonOnly (peri.numericalUnits.getD inputCol "")
        && !skip_first_last agg pop peri)).map (fun agg =>
      ⟨agg, conds, .numerical, inputCol, 0, ix, noCategoricalValue⟩))

/-- `FastProp::fit_on_same_units_categorical`. -/
def fit_on_same_units_categorical (pop peri : EDataFrame) (ix : ℕ)
    (conds : List Condition) (hyper : Hyperparameters) :
    List AbstractFeature :=
  (List.range pop.categoricalUnits.length).flatMap (fun outputCol =>
    (List.range peri.categoricalUnits.length).flatMap (fun inputCol =>
      if pop.categoricalUnits.getD outputCol "" ≠ ""
          ∧ pop.categoricalUnits.getD outputCol ""
            = peri.categoricalUnits.getD inputCol "" then
        (hyper.aggregation.filter (fun agg =>
          is_numerical agg && !skip_first_last agg pop peri)).map
          (fun agg => ⟨agg, conds, .sameUnitsCategorical, inputCol,
            outputCol, ix, noCategoricalValue⟩)
      else []))

/-- `FastProp::fit_on_same_units_discrete`; `is_ts` lives in the header
(not under `src/`) and is passed as the external predicate `isTs`. -/
def fit_on_same_units_discrete (isTs : String → String → Bool)
    (pop peri : EDataFrame) (ix : ℕ) (conds : List Condition)
    (hyper : Hyperparameters) : List AbstractFeature :=
  (List.range pop.discreteUnits.length).flatMap (fun outputCol =>
    (List.range peri.discreteUnits.length).flatMap (fun inputCol =>
      if pop.discreteUnits.getD outputCol "" ≠ ""
          ∧ pop.discreteUnits.getD outputCol ""
            = peri.discreteUnits.getD inputCol "" then
        (hyper.aggregation.filter (fun agg =>
          is_numerical agg && !skip_first_last agg pop peri)).map
          (fun agg =>
            ⟨agg, conds,
             if isTs (pop.discreteNames.getD outputCol "")
                 (pop.discreteUnits.getD outputCol "")
             then .sameUnitsDiscreteTs else .sameUnitsDiscrete,
             inputCol, outputCol, ix, noCategoricalValue⟩)
      else []))

/-- `FastProp::fit_on_same_units_numerical`. -/
def fit_on_same_units_numerical (isTs : String → String → Bool)
    (pop peri : EDataFrame) (ix : ℕ) (conds : List Condition)
    (hyper : Hyperparameters) : List AbstractFeature :=
  (List.range pop.numericalUnits.length).flatMap (fun outputCol =>
    (List.range peri.numericalUnits.length).flatMap (fun inputCol =>
      if pop.numericalUnits.getD outputCol "" ≠ ""
          ∧ pop.numericalUnits.getD outputCol ""
            = peri.numericalUnits.getD inputCol "" then
        (hyper.aggregation.filter (fun agg =>
          is_numerical agg && !skip_first_last agg pop peri)).map
          (fun agg =>
            ⟨agg, conds,
             if isTs (pop.numericalNames.getD outputCol "")
                 (pop.numericalUnits.getD outputCol "")
             then .sameUnitsNumericalTs else .sameUnitsNumerical,
             inputCol, outputCol, ix, noCategoricalValue⟩)
      else []))

/-- `FastProp::fit_on_subfeatures`: numerical aggregations of the child
FastProp's features; `subNumFeatures` is `subfeatures().at(ix)` when the
child exists. -/
def fit_on_subfeatures (subNumFeatures : Option ℕ) (pop peri : EDataFrame)
    (ix : ℕ) (conds : List Condition) (hyper : Hyperparameters) :
    List AbstractFeature :=
  match subNumFeatures with
  | none => []
  | some n =>
    (List.range n).flatMap (fun inputCol =>
      (hyper.aggregation.filter (fun agg =>
        is_numerical agg && !skip_first_last agg pop peri)).map (fun agg =>
        ⟨agg, conds, .subfeatures, inputCol, 0, ix, noCategoricalValue⟩))

/-- `FastProp::fit_on_peripheral` (lines 880-926): all the `fit_on_*`
candidates for every (already condition-filtered) condition set, the
always-admitted AVG TIME BETWEEN feature when the **peripheral** table has
a time stamp, and the COUNT feature when COUNT is configured. -/
def fit_on_peripheral (isTs : String → String → Bool)
    (subNumFeatures : Option ℕ) (pop peri : EDataFrame) (ix : ℕ)
    (conds : List (List Condition)) (hyper : Hyperparameters) :
    List AbstractFeature :=
  (conds.flatMap (fun cond =>
    fit_on_categoricals peri ix cond hyper
      ++ fit_on_categoricals_by_categories pop peri ix cond hyper
      ++ fit_on_discretes pop peri ix cond hyper
      ++ fit_on_numericals pop peri ix cond hyper
      ++ fit_on_same_units_categorical pop peri ix cond hyper
      ++ fit_on_same_units_discrete isTs pop peri ix cond hyper
      ++ fit_on_same_units_numerical isTs pop peri ix cond hyper
      ++ fit_on_subfeatures subNumFeatures pop peri ix cond hyper
      ++ (if 0 < peri.numTimeStamps then
          [⟨.avgTimeBetween, cond, .na, 0, 0, ix, noCategoricalValue⟩]
        else [])))
    ++ (if has_count hyper then
        [⟨.count, [], .na, 0, 0, ix, noCategoricalValue⟩]
      else [])

theorem is_categorical_not_first_last (agg : Aggregation)
    (h : is_categorical agg = true) : is_first_last agg = false := by
  cases agg <;> revert h <;> decide

theorem atb_not_in_timelist :
    Aggregation.avgTimeBetween ∉ ([.first, .last, .timeSinceFirstEvent,
      .timeSinceLastEvent, .trend] : List Aggregation) := by decide

theorem count_not_in_timelist :
    Aggregation.count ∉ ([.first, .last, .timeSinceFirstEvent,
      .timeSinceLastEvent, .trend] : List Aggregation) := by decide

theorem count_ne_atb : Aggregation.count ≠ .avgTimeBetween := by decide

theorem skip_false_time (agg : Aggregation) (pop peri : EDataFrame)
    (h : skip_first_last agg pop peri = false)
    (htime : is_first_last agg = true) :
    0 < pop.numTimeStamps ∧ 0 < peri.numTimeStamps := by
  rw [skip_first_last, htime] at h
  simp only [Bool.true_and, Bool.or_eq_false_iff, beq_eq_false_iff_ne,
    ne_eq] at h
  omega

theorem mem_fit_on_categoricals_skip (peri pop : EDataFrame) (ix : ℕ)
    (cond : List Condition) (hyper : Hyperparameters)
    (f : AbstractFeature) (hf : f ∈ fit_on_categoricals peri ix cond hyper) :
    skip_first_last f.aggregation pop peri = false := by
  rw [fit_on_categoricals] at hf
  simp only [List.mem_flatMap, List.mem_range] at hf
  obtain ⟨i, _, hmem⟩ := hf
  split at hmem
  · simp at hmem
  · split at hmem
    · simp at hmem
    · simp only [List.mem_map, List.mem_filter] at hmem
      obtain ⟨agg, ⟨_, hcat⟩, rfl⟩ := hmem
      rw [skip_first_last, is_categorical_not_first_last agg hcat]
      rfl

theorem mem_agg_guard_skip (pop peri : EDataFrame)
    (hyper : Hyperparameters) (agg : Aggregation)
    (hfil : agg ∈ hyper.aggregation.filter (fun agg =>
      is_numerical agg && !skip_first_last agg pop peri)) :
    skip_first_last agg pop peri = false := by
  rw [List.mem_filter] at hfil
  have h := hfil.2
  simp only [Bool.and_eq_true, Bool.not_eq_true'] at h
  exact h.2

theorem mem_fit_on_categoricals_by_categories_skip
    (pop peri : EDataFrame) (ix : ℕ) (cond : List Condition)
    (hyper : Hyperparameters) (f : AbstractFeature)
    (hf : f ∈ fit_on_categoricals_by_categories pop peri ix cond hyper) :
    skip_first_last f.aggregation pop peri = false := by
  rw [fit_on_categoricals_by_categories] at hf
  simp only [List.mem_flatMap, List.mem_range] at hf
  obtain ⟨i, _, hmem⟩ := hf
  split at hmem
  · simp at hmem
  · split at hmem
    · simp at hmem
    · simp only [List.mem_flatMap, List.mem_map] at hmem
      obtain ⟨cat, _, agg, hfil, rfl⟩ := hmem
      exact mem_agg_guard_skip pop peri hyper agg hfil

theorem mem_fit_on_discretes_skip (pop peri : EDataFrame) (ix : ℕ)
    (cond : List Condition) (hyper : Hyperparameters) (f : AbstractFeature)
    (hf : f ∈ fit_on_discretes pop peri ix cond hyper) :
    skip_first_last f.aggregation pop peri = false := by
  rw [fit_on_discretes] at hf
  simp only [List.mem_flatMap, List.mem_range, List.mem_map,
    List.mem_filter] at hf
  obtain ⟨i, _, agg, ⟨_, hfil⟩, rfl⟩ := hf
  simp only [Bool.and_eq_true, Bool.not_eq_true'] at hfil
  exact hfil.2

theorem mem_fit_on_numericals_skip (pop peri : EDataFrame) (ix : ℕ)
    (cond : List Condition) (hyper : Hyperparameters) (f : AbstractFeature)
    (hf : f ∈ fit_on_numericals pop peri ix cond hyper) :
    skip_first_last f.aggregation pop peri = false := by
  rw [fit_on_numericals] at hf
  simp only [List.mem_flatMap, List.mem_range, List.mem_map,
    List.mem_filter] at hf
  obtain ⟨i, _, agg, ⟨_, hfil⟩, rfl⟩ := hf
  simp only [Bool.and_eq_true, Bool.not_eq_true'] at hfil
  exact hfil.2

theorem mem_fit_on_same_units_categorical_skip (pop peri : EDataFrame)
    (ix : ℕ) (cond : List Condition) (hyper : Hyperparameters)
    (f : AbstractFeature)
    (hf : f ∈ fit_on_same_units_categorical pop peri ix cond hyper) :
    skip_first_last f.aggregation pop peri = false := by
  rw [fit_on_same_units_categorical] at hf
  simp only [List.mem_flatMap, List.mem_range] at hf
  obtain ⟨o, _, i, _, hmem⟩ := hf
  split at hmem
  · simp only [List.mem_map] at hmem
    obtain ⟨agg, hfil, rfl⟩ := hmem
    exact mem_agg_guard_skip pop peri hyper agg hfil
  · simp at hmem

theorem mem_fit_on_same_units_discrete_skip
    (isTs : String → String → Bool) (pop peri : EDataFrame) (ix : ℕ)
    (cond : List Condition) (hyper : Hyperparameters) (f : AbstractFeature)
    (hf : f ∈ fit_on_same_units_discrete isTs pop peri ix cond hyper) :
    skip_first_last f.aggregation pop peri = false := by
  rw [fit_on_same_units_discrete] at hf
  simp only [List.mem_flatMap, List.mem_range] at hf
  obtain ⟨o, _, i, _, hmem⟩ := hf
  split at hmem
  · simp only [List.mem_map] at hmem
    obtain ⟨agg, hfil, rfl⟩ := hmem
    exact mem_agg_guard_skip pop peri hyper agg hfil
  · simp at hmem

theorem mem_fit_on_same_units_numerical_skip
    (isTs : String → String → Bool) (pop peri : EDataFrame) (ix : ℕ)
    (cond : List Condition) (hyper : Hyperparameters) (f : AbstractFeature)
    (hf : f ∈ fit_on_same_units_numerical isTs pop peri ix cond hyper) :
    skip_first_last f.aggregation pop peri = false := by
  rw [fit_on_same_units_numerical] at hf
  simp only [List.mem_flatMap, List.mem_range] at hf
  obtain ⟨o, _, i, _, hmem⟩ := hf
  split at hmem
  · simp only [List.mem_map] at hmem
    obtain ⟨agg, hfil, rfl⟩ := hmem
    exact mem_agg_guard_skip pop peri hyper agg hfil
  · simp at hmem

theorem mem_fit_on_subfeatures_skip (subN : Option ℕ)
    (pop peri : EDataFrame) (ix : ℕ) (cond : List Condition)
    (hyper : Hyperparameters) (f : AbstractFeature)
    (hf : f ∈ fit_on_subfeatures subN pop peri ix cond hyper) :
    skip_first_last f.aggregation pop peri = false := by
  cases subN with
  | none =>
    rw [fit_on_subfeatures] at hf
    simp at hf
  | some n =>
    rw [fit_on_subfeatures] at hf
    simp only [List.mem_flatMap, List.mem_range, List.mem_map] at hf
    obtain ⟨i, _, agg, hfil, rfl⟩ := hf
    exact mem_agg_guard_skip pop peri hyper agg hfil

/-- C4, counterexample.  A population without time stamps, a peripheral
with one: `fit_on_peripheral` still generates the always-admitted
AVG TIME BETWEEN feature (the guard at FastProp.cpp:914 checks only the
peripheral), contradicting "time-oriented aggregations … require time
stamps on both sides". -/
theorem fit_time_compat_counterexample :
    fit_on_peripheral (fun _ _ => false) none
        ⟨[], [], [], [], [], [], 0⟩ ⟨[], [], [], [], [], [], 1⟩ 0 [[]]
        ⟨[], 0, 0⟩
      = [⟨.avgTimeBetween, [], .na, 0, 0, 0, noCategoricalValue⟩] ∧
      (⟨[], [], [], [], [], [], 0⟩ : EDataFrame).numTimeStamps = 0 ∧
      is_first_last .avgTimeBetween = true :=
  ⟨rfl, rfl, rfl⟩

/-- C4, amended.  Every candidate generated by `fit_on_peripheral` with a
FIRST/LAST/TIME SINCE FIRST EVENT/TIME SINCE LAST EVENT/TREND aggregation
requires time stamps on **both** sides (via `skip_first_last`); an
AVG TIME BETWEEN candidate requires a time stamp on the peripheral side
only — the always-admitted `data_used = na` AVG TIME BETWEEN feature is
generated even when the population lacks time stamps, while AVG TIME
BETWEEN reached through the aggregation list (any other `data_used`) does
require both sides. -/
theorem fit_on_peripheral_time_compat (isTs : String → String → Bool)
    (subN : Option ℕ) (pop peri : EDataFrame) (ix : ℕ)
    (conds : List (List Condition)) (hyper : Hyperparameters) :
    ∀ f ∈ fit_on_peripheral isTs subN pop peri ix conds hyper,
      (f.aggregation ∈ ([.first, .last, .timeSinceFirstEvent,
          .timeSinceLastEvent, .trend] : List Aggregation) →
        0 < pop.numTimeStamps ∧ 0 < peri.numTimeStamps) ∧
      (f.aggregation = .avgTimeBetween →
        0 < peri.numTimeStamps ∧
          (f.dataUsed ≠ .na → 0 < pop.numTimeStamps)) := by
  intro f hf
  have htimelist : ∀ agg ∈ ([.first, .last, .timeSinceFirstEvent,
      .timeSinceLastEvent, .trend] : List Aggregation),
      is_first_last agg = true := by decide
  rw [fit_on_peripheral] at hf
  rcases List.mem_append.mp hf with hbig | hcount
  · rw [List.mem_flatMap] at hbig
    obtain ⟨cond, _, hmem⟩ := hbig
    have hskip_case : skip_first_last f.aggregation pop peri = false ∨
        (f = ⟨.avgTimeBetween, cond, .na, 0, 0, ix, noCategoricalValue⟩
          ∧ 0 < peri.numTimeStamps) := by
      rcases List.mem_append.mp hmem with h | h9
      rcases List.mem_append.mp h with h | h8
      rcases List.mem_append.mp h with h | h7
      rcases List.mem_append.mp h with h | h6
      rcases List.mem_append.mp h with h | h5
      rcases List.mem_append.mp h with h | h4
      rcases List.mem_append.mp h with h | h3
      rcases List.mem_append.mp h with h1 | h2
      · exact Or.inl (mem_fit_on_categoricals_skip peri pop ix cond
          hyper f h1)
      · exact Or.inl (mem_fit_on_categoricals_by_categories_skip
          pop peri ix cond hyper f h2)
      · exact Or.inl (mem_fit_on_discretes_skip pop peri ix cond hyper
          f h3)
      · exact Or.inl (mem_fit_on_numericals_skip pop peri ix cond hyper
          f h4)
      · exact Or.inl (mem_fit_on_same_units_categorical_skip pop peri ix
          cond hyper f h5)
      · exact Or.inl (mem_fit_on_same_units_discrete_skip isTs pop peri
          ix cond hyper f h6)
      · exact Or.inl (mem_fit_on_same_units_numerical_skip isTs pop peri
          ix cond hyper f h7)
      · exact Or.inl (mem_fit_on_subfeatures_skip subN pop peri ix cond
          hyper f h8)
      · refine Or.inr ?_
        split at h9
        · rw [List.mem_singleton] at h9
          constructor
          · exact h9
          · assumption
        · simp at h9
    rcases hskip_case with hskip | ⟨rfl, hperi⟩
    · constructor
      · intro hmem5
        exact skip_false_time _ pop peri hskip (htimelist _ hmem5)
      · intro hatb
        have := skip_false_time _ pop peri hskip (by rw [hatb]; rfl)
        exact ⟨this.2, fun _ => this.1⟩
    · constructor
      · intro hmem5
        exact absurd hmem5 atb_not_in_timelist
      · intro _
        exact ⟨hperi, fun hna => absurd rfl hna⟩
  · split at hcount
    · rw [List.mem_singleton] at hcount
      subst hcount
      constructor
      · intro hmem5
        exact absurd hmem5 count_not_in_timelist
      · intro hatb
        exact absurd hatb count_ne_atb
    · simp at hcount

/-- Witness for `fit_on_peripheral_time_compat`: with time stamps on both
sides, the TREND feature generated from a numerical column indeed implies
both sides have time stamps. -/
theorem fit_on_peripheral_time_compat_witness :
    (⟨.trend, [], .numerical, 0, 0, 0, noCategoricalValue⟩ : AbstractFeature)
        ∈ fit_on_peripheral (fun _ _ => false) none
          ⟨[], [], [], [], [], [], 1⟩ ⟨[], [], [], [], ["u"], ["x"], 1⟩ 0
          [[]] ⟨[.trend], 0, 0⟩ ∧
      (0 < (⟨[], [], [], [], [], [], 1⟩ : EDataFrame).numTimeStamps ∧
        0 < (⟨[], [], [], [], ["u"], ["x"], 1⟩ : EDataFrame).numTimeStamps) :=
  ⟨by decide,
   (fit_on_peripheral_time_compat (fun _ _ => false) none
      ⟨[], [], [], [], [], [], 1⟩ ⟨[], [], [], [], ["u"], ["x"], 1⟩ 0
      [[]] ⟨[.trend], 0, 0⟩
      ⟨.trend, [], .numerical, 0, 0, 0, noCategoricalValue⟩
      (by decide)).1 (by decide)⟩

/-! ## C10: subfeature fitting applies no selection
(`FastProp::fit`, FastProp.cpp lines 492-552, and
`FastProp::fit_subfeatures`, lines 930-980).
-/

/-- The placeholder tree (`containers::Placeholder` with its
`joined_tables()`); the payload identifies the table bound to the node. -/
inductive PTree where
  | mk (payload : ℕ) (children : List PTree)
deriving Repr

def PTree.payload : PTree → ℕ
  | .mk p _ => p

/-- A fitted FastProp node: `abstract_features_` plus the fitted
`subfeatures_` tree. -/
inductive FittedTree where
  | mk (payload : ℕ) (features : List AbstractFeature)
      (children : List FittedTree)
deriving Repr

def FittedTree.features : FittedTree → List AbstractFeature
  | .mk _ f _ => f

def FittedTree.payload : FittedTree → ℕ
  | .mk p _ _ => p

def FittedTree.children : FittedTree → List FittedTree
  | .mk _ _ cs => cs

mutual
/-- `FastProp::fit`: fit the subfeature tree (always with
`_as_subfeatures = true`), enumerate the candidates, and apply
`select_features` only when `_as_subfeatures` is false.  `enumerate`
stands for the `fit_on_peripheral` loop over the node's tables and `rsq`
for `calc_r_squared` on the node's data. -/
def fit_node (enumerate : ℕ → List AbstractFeature) (numFeatures : ℕ)
    (rsq : ℕ → List ℚ) : PTree → Bool → FittedTree
  | .mk p cs, asSub =>
    .mk p
      (if asSub then enumerate p
       else select_features numFeatures (enumerate p) (rsq p))
      (fit_subforest enumerate numFeatures rsq cs)
/-- `FastProp::fit_subfeatures`: every child is fitted with
`_as_subfeatures = true`. -/
def fit_subforest (enumerate : ℕ → List AbstractFeature) (numFeatures : ℕ)
    (rsq : ℕ → List ℚ) : List PTree → List FittedTree
  | [] => []
  | t :: ts =>
    fit_node enumerate numFeatures rsq t true
      :: fit_subforest enumerate numFeatures rsq ts
end

mutual
/-- All nodes of a fitted tree, the root included. -/
def FittedTree.nodes : FittedTree → List FittedTree
  | .mk p f cs => .mk p f cs :: nodesForest cs
def nodesForest : List FittedTree → List FittedTree
  | [] => []
  | t :: ts => t.nodes ++ nodesForest ts
end

mutual
theorem fit_node_sub_full (enumerate : ℕ → List AbstractFeature)
    (numFeatures : ℕ) (rsq : ℕ → List ℚ) (t : PTree) :
    ∀ d ∈ (fit_node enumerate numFeatures rsq t true).nodes,
      d.features = enumerate d.payload := by
  obtain ⟨p, cs⟩ := t
  intro d hd
  rw [fit_node, FittedTree.nodes] at hd
  rcases List.mem_cons.mp hd with rfl | hd'
  · rfl
  · exact fit_forest_sub_full enumerate numFeatures rsq cs d hd'
theorem fit_forest_sub_full (enumerate : ℕ → List AbstractFeature)
    (numFeatures : ℕ) (rsq : ℕ → List ℚ) (ts : List PTree) :
    ∀ d ∈ nodesForest (fit_subforest enumerate numFeatures rsq ts),
      d.features = enumerate d.payload := by
  cases ts with
  | nil =>
    intro d hd
    rw [fit_subforest, nodesForest] at hd
    exact absurd hd (List.not_mem_nil d)
  | cons t ts' =>
    intro d hd
    rw [fit_subforest, nodesForest] at hd
    rcases List.mem_append.mp hd with h | h
    · exact fit_node_sub_full enumerate numFeatures rsq t d h
    · exact fit_forest_sub_full enumerate numFeatures rsq ts' d h
end

theorem mem_nodesForest_of_mem (l : List FittedTree) (c : FittedTree)
    (hc : c ∈ l) (d : FittedTree) (hd : d ∈ c.nodes) :
    d ∈ nodesForest l := by
  induction l with
  | nil => exact absurd hc (List.not_mem_nil c)
  | cons t' ts' ih =>
    rw [nodesForest]
    rcases List.mem_cons.mp hc with rfl | hc'
    · exact List.mem_append_left _ hd
    · exact List.mem_append_right _ (ih hc')

/-- C10.  In a top-level `FastProp::fit`, selection is applied only at the
root: every node of the fitted subfeature tree (every strict descendant of
the root) carries the **full** enumerated candidate set, regardless of
`num_features`, because `fit_subfeatures` always fits children with
`_as_subfeatures = true`, which skips `select_features`; the root itself
gets the `select_features` result. -/
theorem fit_subfeatures_no_selection (enumerate : ℕ → List AbstractFeature)
    (numFeatures : ℕ) (rsq : ℕ → List ℚ) (t : PTree) :
    (∀ c ∈ (fit_node enumerate numFeatures rsq t false).children,
      ∀ d ∈ c.nodes, d.features = enumerate d.payload) ∧
      (fit_node enumerate numFeatures rsq t false).features
        = select_features numFeatures (enumerate t.payload)
            (rsq t.payload) := by
  obtain ⟨p, cs⟩ := t
  constructor
  · intro c hc d hd
    rw [fit_node, FittedTree.children] at hc
    exact fit_forest_sub_full enumerate numFeatures rsq cs d
      (mem_nodesForest_of_mem _ c hc d hd)
  · rw [fit_node]
    rfl

/-- Witness for `fit_subfeatures_no_selection`: a two-level model with two
candidates per node and `num_features = 1` — the child keeps both
candidates while the root selects. -/
theorem fit_subfeatures_no_selection_witness :
    (fit_node
        (fun p => [⟨.count, [], .na, p, 0, 0, noCategoricalValue⟩,
                   ⟨.sum, [], .numerical, p, 0, 0, noCategoricalValue⟩])
        1 (fun _ => [0, 0]) (.mk 0 [.mk 1 []]) false).children
      = [.mk 1 [⟨.count, [], .na, 1, 0, 0, noCategoricalValue⟩,
                ⟨.sum, [], .numerical, 1, 0, 0, noCategoricalValue⟩] []] ∧
    ∀ c ∈ (fit_node
        (fun p => [⟨.count, [], .na, p, 0, 0, noCategoricalValue⟩,
                   ⟨.sum, [], .numerical, p, 0, 0, noCategoricalValue⟩])
        1 (fun _ => [0, 0]) (.mk 0 [.mk 1 []]) false).children,
      ∀ d ∈ c.nodes,
        d.features
          = (fun p => [⟨.count, [], .na, p, 0, 0, noCategoricalValue⟩,
              ⟨.sum, [], .numerical, p, 0, 0, noCategoricalValue⟩])
              d.payload :=
  ⟨rfl,
   (fit_subfeatures_no_selection
     (fun p => [⟨.count, [], .na, p, 0, 0, noCategoricalValue⟩,
                ⟨.sum, [], .numerical, p, 0, 0, noCategoricalValue⟩])
     1 (fun _ => [0, 0]) (.mk 0 [.mk 1 []])).1⟩

/-! ## C6: column-importance conservation
(`FastProp::column_importances`, FastProp.cpp lines 324-356,
`FastProp::infer_importance`, lines 998-1114,
`FastProp::init_subimportance_factors`, lines 1118-1129, consumed by
`column_importances_auto` in `src/src/engine/src/engine/score.cpp`).
-/

/-- `helpers::ColumnDescription::MarkerType`. -/
inductive Marker where
  | population
  | peripheral
deriving DecidableEq, Repr

/-- `helpers::ColumnDescription`. -/
structure ColumnDescription where
  marker : Marker
  table : String
  name : String
deriving DecidableEq, Repr

/-- `ImportanceMaker::add_to_importances` (the .cpp is not under `src/`).
Modelled from the header doc: "Adds the _value to the column signified by
_desc in the map" — accumulate into the entry, inserting it if absent. -/
def add_to_importances (m : List (ColumnDescription × ℚ))
    (d : ColumnDescription) (v : ℚ) : List (ColumnDescription × ℚ) :=
  if m.any (fun p => p.1 = d) then
    m.map (fun p => if p.1 = d then (p.1, p.2 + v) else p)
  else m ++ [(d, v)]

/-- Fold a list of `(description, value)` pairs into the map
(`for (const auto &p : pairs) add_to_importances(p.first, p.second)`,
also `ImportanceMaker::merge`). -/
def addPairs (m : List (ColumnDescription × ℚ))
    (pairs : List (ColumnDescription × ℚ)) :
    List (ColumnDescription × ℚ) :=
  pairs.foldl (fun acc p => add_to_importances acc p.1 p.2) m

/-- Total importance mass of a map. -/
def total (m : List (ColumnDescription × ℚ)) : ℚ :=
  (m.map Prod.snd).sum

/-- Total of a list of pairs. -/
def pairsSum {α : Type} (pairs : List (α × ℚ)) : ℚ :=
  (pairs.map Prod.snd).sum

/-- `ImportanceMaker::transfer_population` (the .cpp is not under `src/`).
Modelled from the header doc: "Transfers all importance values marked
population to an equivalent value marked peripheral". -/
def transfer_population (m : List (ColumnDescription × ℚ)) :
    List (ColumnDescription × ℚ) :=
  (m.filter (fun p => p.1.marker = .population)).foldl
    (fun acc p =>
      add_to_importances acc ⟨.peripheral, p.1.table, p.1.name⟩ p.2)
    (m.filter (fun p => ¬p.1.marker = .population))

/-- Keys of the importance map. -/
def mkeys (m : List (ColumnDescription × ℚ)) : List ColumnDescription :=
  m.map Prod.fst

theorem add_to_importances_keys (m : List (ColumnDescription × ℚ))
    (d : ColumnDescription) (v : ℚ) :
    mkeys (add_to_importances m d v) = mkeys m
      ∨ mkeys (add_to_importances m d v) = mkeys m ++ [d] := by
  rw [add_to_importances]
  by_cases h : m.any (fun p => p.1 = d)
  · rw [if_pos h]
    left
    rw [mkeys, mkeys, List.map_map]
    apply List.map_congr_left
    intro p _
    by_cases hp : p.1 = d <;> simp [hp]
  · rw [if_neg h]
    right
    rw [mkeys, mkeys, List.map_append]
    rfl

theorem add_to_importances_nodup (m : List (ColumnDescription × ℚ))
    (d : ColumnDescription) (v : ℚ) (h : (mkeys m).Nodup) :
    (mkeys (add_to_importances m d v)).Nodup := by
  rcases add_to_importances_keys m d v with he | he
  · rw [he]; exact h
  · rw [he]
    rw [add_to_importances] at he
    by_cases hany : m.any (fun p => p.1 = d)
    · rw [if_pos hany] at he
      exfalso
      have hlen := congrArg List.length he
      rw [mkeys, List.map_map, List.length_map, mkeys,
        List.length_append] at hlen
      simp at hlen
    · have hnotin : d ∉ mkeys m := by
        intro hd
        rw [mkeys, List.mem_map] at hd
        obtain ⟨p, hp, hpd⟩ := hd
        rw [List.any_eq_true] at hany
        push_neg at hany
        exact absurd (by simpa using hpd) (by simpa using hany p hp)
      simp only [List.nodup_append, List.nodup_cons, List.nodup_nil]
      refine ⟨h, by simp, ?_⟩
      intro a ha hb
      simp only [List.mem_singleton] at hb
      subst hb
      exact hnotin ha

theorem total_add_to_importances (m : List (ColumnDescription × ℚ))
    (d : ColumnDescription) (v : ℚ) (h : (mkeys m).Nodup) :
    total (add_to_importances m d v) = total m + v := by
  rw [add_to_importances]
  by_cases hany : m.any (fun p => p.1 = d)
  · rw [if_pos hany]
    induction m with
    | nil => simp at hany
    | cons q tl ih =>
      rw [mkeys, List.map_cons, List.nodup_cons] at h
      rw [List.any_cons] at hany
      by_cases hq : q.1 = d
      · have hdtl : ∀ p ∈ tl, p.1 ≠ d := by
          intro p hp hpd
          apply h.1
          rw [hq, ← hpd]
          exact List.mem_map_of_mem Prod.fst hp
        have htl : tl.map (fun p => if p.1 = d then (p.1, p.2 + v) else p)
            = tl := by
          conv_rhs => rw [← List.map_id tl]
          apply List.map_congr_left
          intro p hp
          rw [if_neg (hdtl p hp)]
          rfl
        rw [List.map_cons, if_pos hq, htl]
        rw [total, total, List.map_cons, List.map_cons, List.sum_cons,
          List.sum_cons]
        ring
      · have hanytl : tl.any (fun p => p.1 = d) := by
          simp only [List.any_cons, Bool.or_eq_true] at hany
          rcases hany with h1 | h1
          · exact absurd (of_decide_eq_true h1) hq
          · exact h1
        rw [List.map_cons, if_neg hq]
        rw [total, total, List.map_cons, List.map_cons, List.sum_cons,
          List.sum_cons]
        have := ih h.2 (by simpa using hanytl)
        rw [total, total] at this
        rw [this]
        ring
  · rw [if_neg hany]
    rw [total, total, List.map_append]
    rw [List.sum_append]
    simp

theorem addPairs_nodup (pairs : List (ColumnDescription × ℚ)) :
    ∀ (m : List (ColumnDescription × ℚ)), (mkeys m).Nodup →
      (mkeys (addPairs m pairs)).Nodup := by
  induction pairs with
  | nil => intro m hm; exact hm
  | cons p tl ih =>
    intro m hm
    rw [addPairs, List.foldl_cons]
    exact ih _ (add_to_importances_nodup m p.1 p.2 hm)

theorem total_addPairs (pairs : List (ColumnDescription × ℚ)) :
    ∀ (m : List (ColumnDescription × ℚ)), (mkeys m).Nodup →
      total (addPairs m pairs) = total m + pairsSum pairs := by
  induction pairs with
  | nil =>
    intro m _
    rw [addPairs, List.foldl_nil, pairsSum]
    simp
  | cons p tl ih =>
    intro m hm
    rw [addPairs, List.foldl_cons]
    have h1 := ih (add_to_importances m p.1 p.2)
      (add_to_importances_nodup m p.1 p.2 hm)
    rw [addPairs] at h1
    rw [h1, total_add_to_importances m p.1 p.2 hm]
    rw [pairsSum, pairsSum, List.map_cons, List.sum_cons]
    ring

theorem total_filter_partition (m : List (ColumnDescription × ℚ)) :
    total m = total (m.filter (fun p => p.1.marker = .population))
      + total (m.filter (fun p => ¬p.1.marker = .population)) := by
  induction m with
  | nil => simp [total]
  | cons q tl ih =>
    simp only [total] at *
    by_cases hq : q.1.marker = .population
    · rw [List.filter_cons_of_pos (by simpa using hq),
        List.filter_cons_of_neg (by simpa using hq)]
      simp only [List.map_cons, List.sum_cons]
      rw [ih]
      ring
    · rw [List.filter_cons_of_neg (by simpa using hq),
        List.filter_cons_of_pos (by simpa using hq)]
      simp only [List.map_cons, List.sum_cons]
      rw [ih]
      ring

theorem total_transfer_population (m : List (ColumnDescription × ℚ))
    (h : (mkeys m).Nodup) :
    total (transfer_population m) = total m := by
  rw [transfer_population]
  have hrest : (mkeys (m.filter (fun p => ¬p.1.marker = .population))).Nodup := by
    rw [mkeys]
    exact h.sublist ((List.filter_sublist m).map Prod.fst)
  have key : ∀ (pairs : List (ColumnDescription × ℚ))
      (acc : List (ColumnDescription × ℚ)), (mkeys acc).Nodup →
      total (pairs.foldl (fun acc p =>
        add_to_importances acc ⟨.peripheral, p.1.table, p.1.name⟩ p.2) acc)
        = total acc + pairsSum pairs := by
    intro pairs
    induction pairs with
    | nil =>
      intro acc _
      rw [List.foldl_nil, pairsSum]
      simp
    | cons p tl ih =>
      intro acc hacc
      rw [List.foldl_cons]
      rw [ih _ (add_to_importances_nodup acc _ p.2 hacc)]
      rw [total_add_to_importances acc _ p.2 hacc]
      rw [pairsSum, pairsSum, List.map_cons, List.sum_cons]
      ring
  rw [key _ _ hrest]
  have : pairsSum (m.filter (fun p => p.1.marker = .population))
      = total (m.filter (fun p => p.1.marker = .population)) := rfl
  rw [this]
  rw [total_filter_partition m]
  ring

/-- `helpers::Schema`, restricted to what `infer_importance` reads. -/
structure Schema where
  name : String
  categoricals : List String
  discretes : List String
  numericals : List String
  texts : List String
deriving DecidableEq, Repr

/-- The empty schema (never reached at asserted call sites). -/
def emptySchema : Schema := ⟨"", [], [], [], []⟩

/-- A fitted FastProp node as read by `column_importances`:
`abstract_features_`, `main_table_schemas_`, `peripheral_table_schemas_`
and the `subfeatures_` vector (one optional child per joined table). -/
inductive FPNode where
  | mk (features : List AbstractFeature) (mainSchemas : List Schema)
      (periSchemas : List Schema) (children : List (Option FPNode))

def FPNode.features : FPNode → List AbstractFeature
  | .mk f _ _ _ => f

def FPNode.mainSchemas : FPNode → List Schema
  | .mk _ ms _ _ => ms

def FPNode.periSchemas : FPNode → List Schema
  | .mk _ _ ps _ => ps

def FPNode.children : FPNode → List (Option FPNode)
  | .mk _ _ _ cs => cs

/-- `FastProp::infer_importance`, the returned `(description, value)`
pairs per `data_used` (the `subfeatures` case returns no pairs; its factor
transfer is `update_subfactors` below). -/
def infer_pairs (ms ps : List Schema) (f : AbstractFeature) (factor : ℚ) :
    List (ColumnDescription × ℚ) :=
  let peri := ps.getD f.peripheral emptySchema
  let popu := ms.getD f.peripheral emptySchema
  match f.dataUsed with
  | .categorical =>
    [(⟨.peripheral, peri.name, peri.categoricals.getD f.inputCol ""⟩,
      factor)]
  | .discrete =>
    [(⟨.peripheral, peri.name, peri.discretes.getD f.inputCol ""⟩, factor)]
  | .na => []
  | .numerical =>
    [(⟨.peripheral, peri.name, peri.numericals.getD f.inputCol ""⟩,
      factor)]
  | .sameUnitsCategorical =>
    [(⟨.peripheral, peri.name, peri.categoricals.getD f.inputCol ""⟩,
      factor * (1 / 2)),
     (⟨.population, popu.name, popu.categoricals.getD f.outputCol ""⟩,
      factor * (1 / 2))]
  | .sameUnitsDiscrete =>
    [(⟨.peripheral, peri.name, peri.discretes.getD f.inputCol ""⟩,
      factor * (1 / 2)),
     (⟨.population, popu.name, popu.discretes.getD f.outputCol ""⟩,
      factor * (1 / 2))]
  | .sameUnitsDiscreteTs =>
    [(⟨.peripheral, peri.name, peri.discretes.getD f.inputCol ""⟩,
      factor * (1 / 2)),
     (⟨.population, popu.name, popu.discretes.getD f.outputCol ""⟩,
      factor * (1 / 2))]
  | .sameUnitsNumerical =>
    [(⟨.peripheral, peri.name, peri.numericals.getD f.inputCol ""⟩,
      factor * (1 / 2)),
     (⟨.population, popu.name, popu.numericals.getD f.outputCol ""⟩,
      factor * (1 / 2))]
  | .sameUnitsNumericalTs =>
    [(⟨.peripheral, peri.name, peri.numericals.getD f.inputCol ""⟩,
      factor * (1 / 2)),
     (⟨.population, popu.name, popu.numericals.getD f.outputCol ""⟩,
      factor * (1 / 2))]
  | .subfeatures => []
  | .text =>
    [(⟨.peripheral, peri.name, peri.texts.getD f.inputCol ""⟩, factor)]

/-- `subimportance_factors.at(j).at(i) += v`. -/
def updAt (l : List ℚ) (i : ℕ) (v : ℚ) : List ℚ :=
  l.set i (l.getD i 0 + v)

def updAt2 (sfs : List (List ℚ)) (j i : ℕ) (v : ℚ) : List (List ℚ) :=
  sfs.set j (updAt (sfs.getD j []) i v)

/-- `FastProp::init_subimportance_factors`: one zero vector per present
child, sized to the child's feature count. -/
def init_subimportance_factors (children : List (Option FPNode)) :
    List (List ℚ) :=
  children.map (fun c =>
    match c with
    | none => []
    | some ch => List.replicate ch.features.length 0)

/-- One step of the `for (i < _importance_factors.size())` loop of
`FastProp::column_importances`: a `subfeatures` feature moves its factor
into the sub-importance factors, every other feature distributes its
pairs into the importance map. -/
def importance_step (ms ps : List Schema)
    (acc : List (ColumnDescription × ℚ) × List (List ℚ))
    (p : AbstractFeature × ℚ) :
    List (ColumnDescription × ℚ) × List (List ℚ) :=
  if p.1.dataUsed = .subfeatures then
    (acc.1, updAt2 acc.2 p.1.peripheral p.1.inputCol p.2)
  else
    (addPairs acc.1 (infer_pairs ms ps p.1 p.2), acc.2)

/-- The whole `for (i < _importance_factors.size())` loop: the resulting
importance map and sub-importance factors. -/
def feature_pass (ms ps : List Schema) (feats : List AbstractFeature)
    (factors : List ℚ) (children : List (Option FPNode)) :
    List (ColumnDescription × ℚ) × List (List ℚ) :=
  (feats.zip factors).foldl (importance_step ms ps)
    ([], init_subimportance_factors children)

mutual
/-- `FastProp::column_importances`: distribute each feature's importance
factor over the columns it touches, recurse into the present subfeature
nodes with the accumulated sub-importance factors, and, when called for a
subfeature node, transfer population-marked entries to peripheral. -/
def column_importances (node : FPNode) (factors : List ℚ)
    (isSub : Bool) : List (ColumnDescription × ℚ) :=
  match node with
  | .mk feats ms ps children =>
    if isSub then
      transfer_population (merge_children children
        (feature_pass ms ps feats factors children).2
        (feature_pass ms ps feats factors children).1)
    else
      merge_children children
        (feature_pass ms ps feats factors children).2
        (feature_pass ms ps feats factors children).1
/-- The `for (i < subfeatures().size())` merge loop. -/
def merge_children : List (Option FPNode) → List (List ℚ) →
    List (ColumnDescription × ℚ) → List (ColumnDescription × ℚ)
  | [], _, acc => acc
  | none :: cs, sfs, acc => merge_children cs (sfs.drop 1) acc
  | some ch :: cs, sfs, acc =>
    merge_children cs (sfs.drop 1)
      (addPairs acc (column_importances ch (sfs.getD 0 []) true))
end

mutual
/-- The importance mass lost to `data_used = na` features (COUNT and the
always-admitted AVG TIME BETWEEN), recursively through the subfeature
tree: `infer_importance` returns no column for them. -/
def na_loss (node : FPNode) (factors : List ℚ) : ℚ :=
  match node with
  | .mk feats ms ps children =>
    pairsSum ((feats.zip factors).filter (fun p => p.1.dataUsed = .na))
      + children_na_loss children
        (feature_pass ms ps feats factors children).2
def children_na_loss : List (Option FPNode) → List (List ℚ) → ℚ
  | [], _ => 0
  | none :: cs, sfs => children_na_loss cs (sfs.drop 1)
  | some ch :: cs, sfs =>
    na_loss ch (sfs.getD 0 []) + children_na_loss cs (sfs.drop 1)
end

mutual
/-- Well-formedness of a fitted node (the source's assertions): every
`subfeatures` feature refers to a present child and to one of its
features. -/
def WFNode : FPNode → Prop
  | .mk feats _ _ children =>
    (∀ f ∈ feats, f.dataUsed = .subfeatures →
      ∃ ch, children.getD f.peripheral none = some ch
        ∧ f.inputCol < ch.features.length)
      ∧ WFChildren children
def WFChildren : List (Option FPNode) → Prop
  | [] => True
  | none :: cs => WFChildren cs
  | some ch :: cs => WFNode ch ∧ WFChildren cs
end

/-- Sum of the inner sums of the sub-importance factor vectors. -/
def sfTotal (sfs : List (List ℚ)) : ℚ :=
  (sfs.map List.sum).sum

theorem infer_pairs_total (ms ps : List Schema) (f : AbstractFeature)
    (factor : ℚ) :
    pairsSum (infer_pairs ms ps f factor)
      = if f.dataUsed = .na ∨ f.dataUsed = .subfeatures then 0
        else factor := by
  cases h : f.dataUsed <;> simp [infer_pairs, pairsSum, h] <;> ring

theorem sum_set_rat (l : List ℚ) :
    ∀ (i : ℕ) (x : ℚ), i < l.length →
      (l.set i x).sum = l.sum - l.getD i 0 + x := by
  induction l with
  | nil => intro i x h; simp at h
  | cons a tl ih =>
    intro i x h
    cases i with
    | zero => simp [List.sum_cons]; ring
    | succ i =>
      rw [List.set_cons_succ, List.sum_cons, List.sum_cons,
        List.getD_cons_succ]
      rw [ih i x (by simpa using h)]
      ring

theorem updAt_sum (l : List ℚ) (i : ℕ) (v : ℚ) (h : i < l.length) :
    (updAt l i v).sum = l.sum + v := by
  rw [updAt, sum_set_rat l i _ h]
  ring

theorem sfTotal_cons (s : List ℚ) (sfs : List (List ℚ)) :
    sfTotal (s :: sfs) = s.sum + sfTotal sfs := by
  simp [sfTotal]

theorem sfTotal_decomp (sfs : List (List ℚ)) :
    sfTotal sfs = (sfs.getD 0 []).sum + sfTotal (sfs.drop 1) := by
  cases sfs with
  | nil => simp [sfTotal]
  | cons s tl => simp [sfTotal]

theorem updAt2_maplen (sfs : List (List ℚ)) :
    ∀ (j i : ℕ) (v : ℚ),
      (updAt2 sfs j i v).map List.length = sfs.map List.length := by
  induction sfs with
  | nil => intro j i v; rfl
  | cons s tl ih =>
    intro j i v
    cases j with
    | zero =>
      rw [updAt2, List.getD_cons_zero, List.set_cons_zero]
      simp [updAt]
    | succ j =>
      rw [updAt2, List.getD_cons_succ, List.set_cons_succ]
      rw [List.map_cons, List.map_cons]
      rw [show tl.set j (updAt (tl.getD j []) i v) = updAt2 tl j i v
        from rfl]
      rw [ih j i v]

theorem updAt2_sfTotal (sfs : List (List ℚ)) :
    ∀ (j i : ℕ) (v : ℚ), j < sfs.length →
      i < (sfs.getD j []).length →
      sfTotal (updAt2 sfs j i v) = sfTotal sfs + v := by
  induction sfs with
  | nil => intro j i v hj _; simp at hj
  | cons s tl ih =>
    intro j i v hj hi
    cases j with
    | zero =>
      rw [updAt2, List.getD_cons_zero, List.set_cons_zero]
      rw [sfTotal_cons, sfTotal_cons]
      rw [updAt_sum s i v (by simpa using hi)]
      ring
    | succ j =>
      rw [updAt2, List.getD_cons_succ, List.set_cons_succ]
      rw [sfTotal_cons, sfTotal_cons]
      rw [show tl.set j (updAt (tl.getD j []) i v) = updAt2 tl j i v
        from rfl]
      rw [ih j i v (by simpa using hj) (by simpa using hi)]
      ring

theorem len_getD (sfs : List (List ℚ)) (j : ℕ) :
    (sfs.getD j []).length = (sfs.map List.length).getD j 0 := by
  by_cases hj : j < sfs.length
  · rw [List.getD_eq_getElem _ _ hj,
      List.getD_eq_getElem _ _ (by simpa using hj)]
    simp
  · push_neg at hj
    rw [List.getD_eq_default _ _ hj,
      List.getD_eq_default _ _ (by simpa using hj)]
    rfl

theorem getD_len_of_maplen (sfs sfs' : List (List ℚ))
    (h : sfs.map List.length = sfs'.map List.length) (j : ℕ) :
    (sfs.getD j []).length = (sfs'.getD j []).length := by
  rw [len_getD, len_getD, h]

theorem length_of_maplen (sfs sfs' : List (List ℚ))
    (h : sfs.map List.length = sfs'.map List.length) :
    sfs.length = sfs'.length := by
  have := congrArg List.length h
  simpa using this

/-- Invariant of the feature loop: the map keys stay unique, the
sub-importance factor shapes are preserved, and the combined mass of the
importance map and the sub-importance factors grows by exactly the
non-`na` factor mass. -/
theorem feature_pass_invariant (ms ps : List Schema)
    (pairs : List (AbstractFeature × ℚ)) :
    ∀ (m0 : List (ColumnDescription × ℚ)) (sf0 : List (List ℚ)),
      (mkeys m0).Nodup →
      (∀ p ∈ pairs, p.1.dataUsed = .subfeatures →
        p.1.peripheral < sf0.length ∧
          p.1.inputCol < (sf0.getD p.1.peripheral []).length) →
      (mkeys (pairs.foldl (importance_step ms ps) (m0, sf0)).1).Nodup ∧
      ((pairs.foldl (importance_step ms ps) (m0, sf0)).2).map List.length
        = sf0.map List.length ∧
      total (pairs.foldl (importance_step ms ps) (m0, sf0)).1
          + sfTotal (pairs.foldl (importance_step ms ps) (m0, sf0)).2
        = total m0 + sfTotal sf0 + pairsSum pairs
          - pairsSum (pairs.filter (fun p => p.1.dataUsed = .na)) := by
  induction pairs with
  | nil =>
    intro m0 sf0 hnd _
    refine ⟨hnd, rfl, ?_⟩
    simp [pairsSum]
  | cons p tl ih =>
    intro m0 sf0 hnd hbounds
    rw [List.foldl_cons]
    by_cases hsub : p.1.dataUsed = .subfeatures
    · rw [importance_step, if_pos hsub]
      have hb := hbounds p (List.mem_cons_self p tl) hsub
      have hbtl : ∀ q ∈ tl, q.1.dataUsed = .subfeatures →
          q.1.peripheral < (updAt2 sf0 p.1.peripheral p.1.inputCol
            p.2).length ∧
          q.1.inputCol < ((updAt2 sf0 p.1.peripheral p.1.inputCol
            p.2).getD q.1.peripheral []).length := by
        intro q hq hqsub
        have h0 := hbounds q (List.mem_cons_of_mem p hq) hqsub
        constructor
        · rw [length_of_maplen _ _ (updAt2_maplen sf0 _ _ _)]
          exact h0.1
        · rw [getD_len_of_maplen _ _ (updAt2_maplen sf0 _ _ _)]
          exact h0.2
      obtain ⟨h1, h2, h3⟩ := ih m0 _ hnd hbtl
      refine ⟨h1, ?_, ?_⟩
      · rw [h2, updAt2_maplen]
      · rw [h3]
        rw [updAt2_sfTotal sf0 _ _ _ hb.1 hb.2]
        have hfil : (p :: tl).filter (fun p => p.1.dataUsed = .na)
            = tl.filter (fun p => p.1.dataUsed = .na) := by
          rw [List.filter_cons_of_neg]
          simp [hsub]
        rw [hfil]
        simp only [pairsSum, List.map_cons, List.sum_cons]
        ring
    · rw [importance_step, if_neg hsub]
      have hbtl : ∀ q ∈ tl, q.1.dataUsed = .subfeatures →
          q.1.peripheral < sf0.length ∧
          q.1.inputCol < (sf0.getD q.1.peripheral []).length :=
        fun q hq hqsub => hbounds q (List.mem_cons_of_mem p hq) hqsub
      obtain ⟨h1, h2, h3⟩ := ih (addPairs m0 (infer_pairs ms ps p.1 p.2))
        sf0 (addPairs_nodup _ m0 hnd) hbtl
      refine ⟨h1, h2, ?_⟩
      rw [h3]
      rw [total_addPairs _ m0 hnd]
      rw [infer_pairs_total]
      by_cases hna : p.1.dataUsed = .na
      · rw [if_pos (Or.inl hna)]
        rw [List.filter_cons_of_pos (by simpa using hna)]
        simp only [pairsSum, List.map_cons, List.sum_cons]
        ring
      · rw [if_neg (by tauto)]
        rw [List.filter_cons_of_neg (by simpa using hna)]
        simp only [pairsSum, List.map_cons, List.sum_cons]
        ring

theorem init_sfTotal (cs : List (Option FPNode)) :
    sfTotal (init_subimportance_factors cs) = 0 := by
  induction cs with
  | nil => rfl
  | cons c tl ih =>
    rw [init_subimportance_factors, List.map_cons, sfTotal_cons]
    rw [show (tl.map (fun c =>
      match c with
      | none => []
      | some ch => List.replicate ch.features.length 0))
      = init_subimportance_factors tl from rfl]
    rw [ih]
    cases c with
    | none => simp
    | some ch => simp

theorem getD_some_lt (cs : List (Option FPNode)) (j : ℕ) (ch : FPNode)
    (h : cs.getD j none = some ch) : j < cs.length := by
  by_contra hj
  push_neg at hj
  rw [List.getD_eq_default _ _ hj] at h
  exact Option.noConfusion h

theorem init_getD (cs : List (Option FPNode)) (j : ℕ) (ch : FPNode)
    (h : cs.getD j none = some ch) :
    (init_subimportance_factors cs).getD j []
      = List.replicate ch.features.length 0 := by
  have hj := getD_some_lt cs j ch h
  rw [List.getD_eq_getElem _ _ hj] at h
  rw [init_subimportance_factors,
    List.getD_eq_getElem _ _ (by simpa using hj)]
  rw [List.getElem_map]
  rw [h]

/-- Positional compatibility of the sub-importance factor vectors with the
children vector. -/
def SfMatch : List (Option FPNode) → List (List ℚ) → Prop
  | [], sfs => sfs = []
  | none :: cs, sfs => sfs.getD 0 [] = [] ∧ SfMatch cs (sfs.drop 1)
  | some ch :: cs, sfs =>
    (sfs.getD 0 []).length = ch.features.length ∧ SfMatch cs (sfs.drop 1)

theorem sfmatch_of_init (cs : List (Option FPNode)) :
    ∀ sfs : List (List ℚ),
      sfs.map List.length
        = (init_subimportance_factors cs).map List.length →
      SfMatch cs sfs := by
  induction cs with
  | nil =>
    intro sfs h
    rw [SfMatch]
    rw [show init_subimportance_factors [] = [] from rfl,
      List.map_nil] at h
    exact List.map_eq_nil_iff.mp h
  | cons c cs' ih =>
    intro sfs h
    rw [init_subimportance_factors, List.map_cons, List.map_cons] at h
    cases sfs with
    | nil => exact absurd h (by simp)
    | cons s sfs' =>
      rw [List.map_cons] at h
      injection h with h1 h2
      rw [show (cs'.map (fun c =>
        match c with
        | none => []
        | some ch => List.replicate ch.features.length 0))
        = init_subimportance_factors cs' from rfl] at h2
      cases c with
      | none =>
        rw [SfMatch]
        refine ⟨?_, ih sfs' h2⟩
        rw [List.getD_cons_zero]
        simpa using List.length_eq_zero.mp (by simpa using h1)
      | some ch =>
        rw [SfMatch]
        refine ⟨?_, ih sfs' h2⟩
        rw [List.getD_cons_zero]
        simpa using h1

mutual
/-- Conservation-with-loss for one node: the total mass of the produced
column importances equals the total feature-importance mass minus the
mass assigned to `data_used = na` features throughout the tree. -/
theorem conservation_node : ∀ (node : FPNode) (factors : List ℚ)
    (isSub : Bool), WFNode node →
    factors.length = node.features.length →
    total (column_importances node factors isSub)
      = factors.sum - na_loss node factors
  | .mk feats ms ps children, factors, isSub, hwf, hlen => by
    rw [WFNode] at hwf
    have hbounds : ∀ p ∈ feats.zip factors,
        p.1.dataUsed = .subfeatures →
        p.1.peripheral < (init_subimportance_factors children).length ∧
          p.1.inputCol <
            ((init_subimportance_factors children).getD
              p.1.peripheral []).length := by
      intro p hp hpsub
      obtain ⟨ch, hch, hcol⟩ := hwf.1 p.1 (List.of_mem_zip hp).1 hpsub
      constructor
      · rw [init_subimportance_factors, List.length_map]
        exact getD_some_lt children _ ch hch
      · rw [init_getD children _ ch hch, List.length_replicate]
        exact hcol
    have hinv := feature_pass_invariant ms ps (feats.zip factors) []
      (init_subimportance_factors children) (by simp [mkeys]) hbounds
    rw [show (feats.zip factors).foldl (importance_step ms ps)
      ([], init_subimportance_factors children)
      = feature_pass ms ps feats factors children from rfl] at hinv
    obtain ⟨hnd, hmaplen, htot⟩ := hinv
    have hzip : pairsSum (feats.zip factors) = factors.sum := by
      rw [pairsSum, List.map_snd_zip feats factors (by
        rw [hlen, FPNode.features])]
    have hsfm := sfmatch_of_init children _ hmaplen
    have hforest := conservation_forest children
      (feature_pass ms ps feats factors children).2 hsfm hwf.2
      (feature_pass ms ps feats factors children).1 hnd
    have hna : na_loss (.mk feats ms ps children) factors
        = pairsSum ((feats.zip factors).filter
            (fun p => p.1.dataUsed = .na))
          + children_na_loss children
            (feature_pass ms ps feats factors children).2 := by
      rw [na_loss]
    rw [init_sfTotal] at htot
    rw [hzip] at htot
    cases isSub with
    | false =>
      rw [column_importances, if_neg (by decide)]
      rw [hforest.1, hna]
      rw [show total ([] : List (ColumnDescription × ℚ)) = 0 from rfl]
        at htot
      linarith [htot]
    | true =>
      rw [column_importances, if_pos rfl]
      rw [total_transfer_population _ hforest.2]
      rw [hforest.1, hna]
      rw [show total ([] : List (ColumnDescription × ℚ)) = 0 from rfl]
        at htot
      linarith [htot]
/-- Conservation-with-loss for the child-merge loop. -/
theorem conservation_forest : ∀ (cs : List (Option FPNode))
    (sfs : List (List ℚ)), SfMatch cs sfs → WFChildren cs →
    ∀ acc : List (ColumnDescription × ℚ), (mkeys acc).Nodup →
    total (merge_children cs sfs acc)
        = total acc + sfTotal sfs - children_na_loss cs sfs
      ∧ (mkeys (merge_children cs sfs acc)).Nodup
  | [], sfs, hsf, _, acc, hacc => by
    rw [SfMatch] at hsf
    subst hsf
    rw [merge_children, children_na_loss]
    refine ⟨?_, hacc⟩
    rw [show sfTotal [] = 0 from rfl]
    ring
  | none :: cs', sfs, hsf, hwf, acc, hacc => by
    rw [SfMatch] at hsf
    rw [WFChildren] at hwf
    rw [merge_children, children_na_loss]
    obtain ⟨hres, hnd⟩ := conservation_forest cs' (sfs.drop 1) hsf.2 hwf
      acc hacc
    refine ⟨?_, hnd⟩
    rw [hres]
    rw [sfTotal_decomp sfs, hsf.1]
    simp
  | some ch :: cs', sfs, hsf, hwf, acc, hacc => by
    rw [SfMatch] at hsf
    rw [WFChildren] at hwf
    rw [merge_children, children_na_loss]
    have hchild := conservation_node ch (sfs.getD 0 []) true hwf.1 hsf.1
    have hacc2 : (mkeys (addPairs acc
        (column_importances ch (sfs.getD 0 []) true))).Nodup :=
      addPairs_nodup _ acc hacc
    obtain ⟨hres, hnd⟩ := conservation_forest cs' (sfs.drop 1) hsf.2 hwf.2
      (addPairs acc (column_importances ch (sfs.getD 0 []) true)) hacc2
    refine ⟨?_, hnd⟩
    rw [hres]
    rw [total_addPairs _ acc hacc]
    rw [show pairsSum (column_importances ch (sfs.getD 0 []) true)
      = total (column_importances ch (sfs.getD 0 []) true) from rfl]
    rw [hchild]
    rw [sfTotal_decomp sfs]
    ring
end

/-- C6, counterexample.  A single selected COUNT feature
(`data_used = na`) carrying importance 1: `infer_importance` returns no
column for it (FastProp.cpp:1034-1035), so the column importances sum to
0 while the feature importances sum to 1 — conservation as claimed fails. -/
theorem importance_na_counterexample :
    total (column_importances
        (.mk [⟨.count, [], .na, 0, 0, 0, noCategoricalValue⟩] [] [] [])
        [1] false) = 0 ∧
      ¬total (column_importances
        (.mk [⟨.count, [], .na, 0, 0, 0, noCategoricalValue⟩] [] [] [])
        [1] false) = [(1 : ℚ)].sum := by
  constructor
  · rfl
  · intro h
    rw [show total (column_importances
        (.mk [⟨.count, [], .na, 0, 0, 0, noCategoricalValue⟩] [] [] [])
        [1] false) = 0 from rfl] at h
    simp at h

/-- C6, amended.  **Importance conservation up to `na` features**: for
every well-formed fitted FastProp tree, the sum of the column importances
produced by back-propagating the feature importances through the
subfeature tree equals the sum of the feature importances **minus** the
mass assigned (at any level) to features with `data_used = na` (plain
COUNT and the always-admitted AVG TIME BETWEEN), which touch no column;
the claimed equality holds exactly when those features carry zero
importance. -/
theorem importance_conservation (node : FPNode) (factors : List ℚ)
    (isSub : Bool) (hwf : WFNode node)
    (hlen : factors.length = node.features.length) :
    total (column_importances node factors isSub)
      = factors.sum - na_loss node factors :=
  conservation_node node factors isSub hwf hlen

/-- Witness for `importance_conservation`: one numerical SUM feature with
importance 2 over a peripheral column; the mass is fully conserved. -/
theorem importance_conservation_witness :
    (WFNode (.mk [⟨.sum, [], .numerical, 0, 0, 0, noCategoricalValue⟩]
        [⟨"P", [], [], [], []⟩] [⟨"T", [], [], ["x"], []⟩] []) ∧
      [(2 : ℚ)].length
        = (FPNode.mk [⟨.sum, [], .numerical, 0, 0, 0, noCategoricalValue⟩]
            [⟨"P", [], [], [], []⟩] [⟨"T", [], [], ["x"], []⟩]
            []).features.length) ∧
    total (column_importances
        (.mk [⟨.sum, [], .numerical, 0, 0, 0, noCategoricalValue⟩]
          [⟨"P", [], [], [], []⟩] [⟨"T", [], [], ["x"], []⟩] [])
        [2] false)
      = [(2 : ℚ)].sum
        - na_loss
            (.mk [⟨.sum, [], .numerical, 0, 0, 0, noCategoricalValue⟩]
              [⟨"P", [], [], [], []⟩] [⟨"T", [], [], ["x"], []⟩] [])
            [2] :=
  ⟨⟨by
      rw [WFNode]
      refine ⟨?_, by rw [WFChildren]; trivial⟩
      intro f hf hsub
      rw [List.mem_singleton] at hf
      subst hf
      exact absurd hsub (by decide),
    rfl⟩,
   importance_conservation _ [2] false
     (by
       rw [WFNode]
       refine ⟨?_, by rw [WFChildren]; trivial⟩
       intro f hf hsub
       rw [List.mem_singleton] at hf
       subst hf
       exact absurd hsub (by decide))
     rfl⟩

end GetML
